import Mathlib

/-!
# Verification of the TTRPG probabilistic combat estimator

Shallow embedding of the repository's discrete-distribution algebra
(`src/aleatory_variable.py`), dice-formula generator (`src/dice.py`) and
combat round engine (`src/simulator.py`) over exact rationals, together
with theorems settling the specification claims.

Floating-point numpy vectors are modelled as `List ℚ`; integer numpy
domain arrays as `List ℤ`.  Loops that accumulate float additions are
denoted index-wise (bin `j` receives the sum of all terms the loop adds
at `j`), which is the same value since rational addition is commutative
and associative.  A numpy operation that raises (failed index lookup,
broadcast mismatch, empty-array access) is modelled by `Option`, `none`
standing for the raised exception.
-/

set_option maxHeartbeats 1000000

namespace Combat

/-- Sum of `f 0 + f 1 + ... + f (n-1)`, list-based so that it evaluates
by kernel reduction on concrete inputs. -/
def sumIdx (n : ℕ) (f : ℕ → ℚ) : ℚ :=
  ((List.range n).map f).sum

/-- `np.arange(lo, hi + 1)` : the integers `lo, lo+1, ..., hi` (empty when `hi < lo`). -/
def intRange (lo hi : ℤ) : List ℤ :=
  (List.range (hi + 1 - lo).toNat).map (fun i : ℕ => lo + (i : ℤ))

/-- `np.cumsum` : running partial sums, same length as the input. -/
def cumsum (l : List ℚ) : List ℚ :=
  (List.range l.length).map (fun i => ((l.take (i + 1)).sum))

/-- Full discrete convolution, `np.convolve(a, b)`:
entry `k` is `∑ a[i] * b[k-i]` over valid index pairs. -/
def conv (a b : List ℚ) : List ℚ :=
  (List.range (a.length + b.length - 1)).map (fun k =>
    sumIdx a.length (fun i =>
      if i ≤ k then a.getD i 0 * b.getD (k - i) 0 else 0))

/-- `t`-fold repeated convolution of `d` with itself
(`convPow d t` = the loop `for _ in range(t): dist = np.convolve(dist, d)`
started from `dist = d`). -/
def convPow (d : List ℚ) : ℕ → List ℚ
  | 0 => d
  | t + 1 => conv (convPow d t) d

/-- A numpy slice-accumulation `vec[start:start+len(c)] += c` carried out for
every contribution `c` in a list: bin `j` receives, from each contribution,
the entry `c.2[j - c.1]` when `j` lies inside that contribution's slice. -/
def accumSlices (L : ℕ) (cs : List (ℕ × List ℚ)) : List ℚ :=
  (List.range L).map (fun j =>
    (cs.map (fun c =>
      if c.1 ≤ j ∧ j - c.1 < c.2.length then c.2.getD (j - c.1) 0 else 0)).sum)

/-- The data-model invariant of the spec: a domain is a contiguous,
strictly-increasing integer range (hence nonempty). -/
def contiguous (l : List ℤ) : Prop :=
  l = intRange (l.headD 0) (l.getLastD 0)

instance (l : List ℤ) : Decidable (contiguous l) :=
  inferInstanceAs (Decidable (l = intRange (l.headD 0) (l.getLastD 0)))

/-- Total mass found at value `v` of an aligned (values, mass) pair. -/
def massAt (values : List ℤ) (mass : List ℚ) (v : ℤ) : ℚ :=
  sumIdx values.length (fun i => if values.getD i 0 = v then mass.getD i 0 else 0)

/-! ## Dice model (src/dice.py) -/

/-- `Dice._boon_distribution`: pmf of the max (min for negative boons) of
`|n_boons|` rolls of a `die`-sided die, by elementwise powering of the cdf
and first-differencing. -/
def boonDistribution (n_boons : ℤ) (die : ℕ := 6) : List ℚ :=
  let c := cumsum (List.replicate die (1 / (die : ℚ)))
  let p := c.map (fun q => q ^ n_boons.natAbs)
  let d := (List.range die).map (fun i =>
    if i = 0 then p.getD 0 0 else p.getD i 0 - p.getD (i - 1) 0)
  if n_boons < 0 then d.reverse else d

/-- `Dice._distribution_values`: frequency vector ((times-1)-fold
self-convolution of a ones vector of length `die`, convolved with the boon
pmf when `boons ≠ 0`) together with the value range. -/
def distributionValues (times die : ℕ) (mod boons : ℤ) : List ℚ × List ℤ :=
  let low_bound : ℤ := mod + times
  let upp_bound : ℤ := mod + times * die
  let dist := convPow (List.replicate die (1 : ℚ)) (times - 1)
  if boons = 0 then (dist, intRange low_bound upp_bound)
  else
    let lb := if 0 < boons then low_bound + 1 else low_bound - 6
    let ub := if 0 < boons then upp_bound + 6 else upp_bound - 1
    (conv dist (boonDistribution boons), intRange lb ub)

structure Dice where
  distribution : List ℚ
  values : List ℤ
  pmf : List ℚ
  cdf : List ℚ
  deriving DecidableEq

/-- `Dice.__init__` (the derived `cardinality`, `avg` and display string are
not modelled: no claim mentions them).  The source asserts `times > 0` and
`die > 0`; theorems carry those as hypotheses. -/
def mkDice (times die : ℕ) (mod : ℤ := 0) (boons : ℤ := 0) : Dice :=
  let dv := distributionValues times die mod boons
  let pmf := dv.1.map (fun q => q / dv.1.sum)
  ⟨dv.1, dv.2, pmf, cumsum pmf⟩

/-- `np.round(x, 2)`: scale by 100, round half to even, scale back. -/
def roundHalfEven (x : ℚ) : ℤ :=
  if x - ⌊x⌋ < 1 / 2 then ⌊x⌋
  else if 1 / 2 < x - ⌊x⌋ then ⌊x⌋ + 1
  else if Even ⌊x⌋ then ⌊x⌋ else ⌊x⌋ + 1

def round2 (x : ℚ) : ℚ := (roundHalfEven (x * 100) : ℚ) / 100

/-- `Dice.prob_against`: `[probability of failure, probability of success]`
of the dice against `target` (success means rolling `≥ target`).
Reading `values[0]` of an empty values array raises in the source; modelled
with default 0, never reached for constructed dice. -/
def Dice.prob_against (d : Dice) (target : ℤ) : List ℚ :=
  let low_bound := d.values.headD 0
  let upp_bound := d.values.getLastD 0
  if target ≤ low_bound then [0, 1]
  else if upp_bound < target then [1, 0]
  else
    let fail_prob := d.cdf.getD (target - low_bound - 1).toNat 0
    [round2 fail_prob, round2 (1 - fail_prob)]

/-- `Dice.combine`: union-of-domains (zero-anchored) weighted sum of the
operands' pmfs, renormalized.  `none` models the exceptions the source can
raise: empty argument list (`min` of an empty sequence), a failed
`np.where` lookup, or a slice-assignment broadcast mismatch. -/
def Dice.combine (dices : List Dice) : Option Dice :=
  match dices with
  | [] => none
  | d0 :: rest =>
    let low_bound := (rest.map (fun d => d.values.headD 0)).foldl min (d0.values.headD 0)
    let upp_bound := (rest.map (fun d => d.values.getLastD 0)).foldl max (d0.values.getLastD 0)
    let lb_zt := if low_bound ≤ 0 then 0 else low_bound
    let ub_zt := if 0 ≤ upp_bound then 0 else upp_bound
    let values := intRange (low_bound - lb_zt) (upp_bound - ub_zt)
    ((d0 :: rest).mapM (fun d =>
        (values.findIdx? (fun z => decide (z = d.values.headD 0))).bind (fun start =>
          if min (start + d.values.length) values.length - start = d.pmf.length
          then some (start, d.pmf) else none))).map
      (fun cs =>
        let probab := accumSlices values.length cs
        let pmf := probab.map (fun q => q / probab.sum)
        ⟨probab, values, pmf, cumsum pmf⟩)

/-! ## Aleatory variable (src/aleatory_variable.py) -/

structure AleatoryVariable where
  domain : List ℤ
  distribution : List ℚ
  deriving DecidableEq

namespace AleatoryVariable

/-- `AleatoryVariable.from_exact`.  The source asserts `value ∈ domain` when
bounds are given; theorems that rely on the point mass carry that as a
hypothesis. -/
def from_exact (value : ℤ) (bounds : Option (ℤ × ℤ) := none) : AleatoryVariable :=
  match bounds with
  | none => ⟨[value], [1]⟩
  | some (lb, ub) =>
    let domain := intRange lb ub
    ⟨domain, domain.map (fun v => if v = value then 1 else 0)⟩

def from_dice (d : Dice) : AleatoryVariable :=
  ⟨d.values, d.pmf⟩

def from_hit (d : Dice) (target : ℤ) : AleatoryVariable :=
  ⟨intRange 0 1, d.prob_against target⟩

/-- `AleatoryVariable.__pow__`.  Reading `domain[0]`/`domain[-1]` of an
empty domain raises in the source; modelled with default 0 (no claim
reaches that case). -/
def pow (x : AleatoryVariable) (n : ℤ) : AleatoryVariable :=
  if n = 0 then from_exact 0 none
  else if 0 < n then
    ⟨intRange (x.domain.headD 0 * (n.natAbs : ℤ)) (x.domain.getLastD 0 * (n.natAbs : ℤ)),
     convPow x.distribution (n.natAbs - 1)⟩
  else
    ⟨((intRange (x.domain.headD 0 * (n.natAbs : ℤ))
        (x.domain.getLastD 0 * (n.natAbs : ℤ))).map (fun z => -z)).reverse,
     (convPow x.distribution (n.natAbs - 1)).reverse⟩

/-- The saturating index clamp of `__sub__`: a target index below `0` goes
to bin `0`, at or above `L` to bin `L - 1`. -/
def clampIdx (L : ℕ) (idx : ℤ) : ℕ :=
  if idx < 0 then 0
  else if (L : ℤ) ≤ idx then L - 1
  else idx.toNat

/-- `AleatoryVariable.__sub__`.  The source's double loop adds
`other.distribution[o] * self.distribution[s]` into the bin at the clamped
index `s - other.domain[o]`; bin `j` of the result is the sum of all terms
the loop adds at `j` (rational addition is order-independent). -/
def sub (x y : AleatoryVariable) : AleatoryVariable :=
  let L := x.domain.length
  ⟨x.domain,
    (List.range L).map (fun j =>
      sumIdx L (fun s =>
        sumIdx y.distribution.length (fun o =>
          if clampIdx L ((s : ℤ) - y.domain.getD o 0) = j
          then y.distribution.getD o 0 * x.distribution.getD s 0
          else 0)))⟩

/-- `AleatoryVariable.__add__`: subtraction of the domain-negated operand. -/
def add (x y : AleatoryVariable) : AleatoryVariable :=
  sub x ⟨y.domain.map (fun z => z * (-1)), y.distribution⟩

/-- One contribution of `AleatoryVariable.__mul__`: raise `x` to the value
`yv`, weight by `yp`, locate the slice start by exact domain lookup.
`none` models the exceptions the source can raise there (empty power
domain, failed `np.where` lookup, broadcast mismatch of the slice add). -/
def mulContrib (x : AleatoryVariable) (dom : List ℤ) (L : ℕ) (yv : ℤ) (yp : ℚ) :
    Option (ℕ × List ℚ) :=
  let tmp := pow x yv
  tmp.domain.head?.bind (fun t0 =>
    (dom.findIdx? (fun z => decide (z = t0))).bind (fun start =>
      if min (start + tmp.domain.length) L - start = tmp.distribution.length
      then some (start, tmp.distribution.map (fun q => q * yp))
      else none))

/-- The accumulation loop of `__mul__` (before normalization). -/
def mulAccum (x y : AleatoryVariable) : Option (List ℚ) :=
  let dom := intRange (x.domain.headD 0 * y.domain.headD 0)
                      (x.domain.getLastD 0 * y.domain.getLastD 0)
  ((List.range y.domain.length).mapM (fun o =>
      mulContrib x dom dom.length (y.domain.getD o 0) (y.distribution.getD o 0))).map
    (fun cs => accumSlices dom.length cs)

/-- `AleatoryVariable.__mul__`.  The final line divides by the accumulated
total without guarding against zero; rational division by zero yields `0`
here just as numpy yields NaN garbage rather than raising. -/
def mul (x y : AleatoryVariable) : Option AleatoryVariable :=
  (mulAccum x y).map (fun acc =>
    ⟨intRange (x.domain.headD 0 * y.domain.headD 0)
              (x.domain.getLastD 0 * y.domain.getLastD 0),
     acc.map (fun q => q / acc.sum)⟩)

end AleatoryVariable

/-! ## Combat model (src/simulator.py) -/

structure RoundModel where
  a_hp : Option AleatoryVariable := none
  a_hits : Option AleatoryVariable := none
  a_damage : Option AleatoryVariable := none
  b_hp : Option AleatoryVariable := none
  b_hits : Option AleatoryVariable := none
  b_damage : Option AleatoryVariable := none
  deriving DecidableEq

/-- `Character` (src/character.py), the fields the engine consumes. -/
structure Character where
  health : ℤ
  defense : ℤ
  attack_dice : Dice
  damage_dice : Dice
  n_attacks : ℤ
  deriving DecidableEq

/-- The engine state: round history plus the per-model constants
`__a_hits`, `__b_hits`, `__a_dmg`, `__b_dmg` computed in `__init__`. -/
structure CombatModel where
  max_rounds : ℕ
  rounds : List RoundModel
  round_number : ℕ
  a_hits : AleatoryVariable
  b_hits : AleatoryVariable
  a_dmg : AleatoryVariable
  b_dmg : AleatoryVariable
  deriving DecidableEq

/-- `CombatModel.__init__`. -/
def CombatModel.init (a_character b_character : Character)
    (max_rounds : ℕ := 10) : CombatModel :=
  { max_rounds := max_rounds
    rounds := [{ a_hp := some (AleatoryVariable.from_exact a_character.health
                   (some (0, a_character.health + 1)))
                 b_hp := some (AleatoryVariable.from_exact b_character.health
                   (some (0, b_character.health + 1))) }]
    round_number := 0
    a_hits := AleatoryVariable.pow
      (AleatoryVariable.from_hit a_character.attack_dice b_character.defense)
      a_character.n_attacks
    b_hits := AleatoryVariable.pow
      (AleatoryVariable.from_hit b_character.attack_dice a_character.defense)
      b_character.n_attacks
    a_dmg := AleatoryVariable.from_dice a_character.damage_dice
    b_dmg := AleatoryVariable.from_dice b_character.damage_dice }

/-- `CombatModel.advance_round`.  The two `multiply` defaults are computed
eagerly exactly as in the source (Python evaluates the fallback argument of
`get` before the lookup), so their failure fails the whole call even when
evidence overrides them.  An out-of-range `rounds[round_number]` access or
a `None` previous hp field raises in the source; modelled by empty
defaults, never reached from engine-produced states. -/
def CombatModel.advance_round (m : CombatModel) (round_evidence : Option RoundModel) :
    Option CombatModel :=
  let prev_round := m.rounds.getD m.round_number {}
  let e := round_evidence.getD {}
  let a_hits := e.a_hits.getD m.a_hits
  let b_hits := e.b_hits.getD m.b_hits
  (AleatoryVariable.mul m.a_dmg a_hits).bind (fun aDmgDefault =>
    (AleatoryVariable.mul m.b_dmg b_hits).bind (fun bDmgDefault =>
      let a_damage := e.a_damage.getD aDmgDefault
      let b_damage := e.b_damage.getD bDmgDefault
      let a_hp := e.a_hp.getD
        (AleatoryVariable.sub (prev_round.a_hp.getD ⟨[], []⟩) b_damage)
      let b_hp := e.b_hp.getD
        (AleatoryVariable.sub (prev_round.b_hp.getD ⟨[], []⟩) a_damage)
      some { m with
        round_number := m.round_number + 1
        rounds := m.rounds ++ [{ a_hp := some a_hp, a_hits := some a_hits,
                                 a_damage := some a_damage, b_hp := some b_hp,
                                 b_hits := some b_hits, b_damage := some b_damage }] }))

/-- `CombatModel.simulate`: advance `max_rounds - 1` times, looking up the
evidence record keyed by `round_number + 1` each time. -/
def CombatModel.simulate (m : CombatModel) (evidence : ℕ → Option RoundModel) :
    Option CombatModel :=
  (List.range (m.max_rounds - 1)).foldlM
    (fun s _ => s.advance_round (evidence (s.round_number + 1))) m

/-! ## Basic lemmas about the helpers -/

theorem sumIdx_zero (f : ℕ → ℚ) : sumIdx 0 f = 0 := rfl

theorem sumIdx_succ (n : ℕ) (f : ℕ → ℚ) :
    sumIdx (n + 1) f = sumIdx n f + f n := by
  simp [sumIdx, List.range_succ]

/-- Bridge from the executable list sum to `Finset.sum`, where the
algebraic sum-manipulation lemmas live. -/
theorem sumIdx_eq_finset (n : ℕ) (f : ℕ → ℚ) :
    sumIdx n f = ∑ i ∈ Finset.range n, f i := by
  induction n with
  | zero => rfl
  | succ m ih => rw [sumIdx_succ, ih, Finset.sum_range_succ]

theorem sumIdx_congr (n : ℕ) (f g : ℕ → ℚ) (h : ∀ i, i < n → f i = g i) :
    sumIdx n f = sumIdx n g := by
  rw [sumIdx_eq_finset, sumIdx_eq_finset]
  exact Finset.sum_congr rfl (fun i hi => h i (Finset.mem_range.mp hi))

/-- Peeling the first summand off an index sum. -/
theorem sumIdx_succ_shift (n : ℕ) (f : ℕ → ℚ) :
    sumIdx (n + 1) f = f 0 + sumIdx n (fun i => f (i + 1)) := by
  rw [sumIdx, sumIdx, List.range_succ_eq_map, List.map_cons, List.sum_cons,
    List.map_map]
  rfl

theorem sumIdx_const_zero (n : ℕ) : sumIdx n (fun _ => 0) = 0 := by
  induction n with
  | zero => rfl
  | succ m ih => rw [sumIdx_succ, ih]; ring

/-- Summing `getD` entries of a list over at least its length gives the list sum. -/
theorem sumIdx_getD (l : List ℚ) (n : ℕ) (h : l.length ≤ n) :
    sumIdx n (fun i => l.getD i 0) = l.sum := by
  induction l generalizing n with
  | nil =>
    simp only [List.getD_nil, List.sum_nil]
    exact sumIdx_const_zero n
  | cons x xs ih =>
    rcases n with _ | m
    · simp at h
    · rw [sumIdx_succ_shift]
      simp only [List.getD_cons_zero, List.getD_cons_succ, List.sum_cons]
      rw [ih m (by simpa using h)]

theorem sumIdx_nonneg (n : ℕ) (f : ℕ → ℚ) (h : ∀ i, i < n → 0 ≤ f i) :
    0 ≤ sumIdx n f := by
  rw [sumIdx_eq_finset]
  exact Finset.sum_nonneg (fun i hi => h i (Finset.mem_range.mp hi))

theorem intRange_length (lo hi : ℤ) :
    (intRange lo hi).length = (hi + 1 - lo).toNat := by
  rw [intRange, List.length_map, List.length_range]

theorem intRange_getElem (lo hi : ℤ) (i : ℕ) (h : i < (intRange lo hi).length) :
    (intRange lo hi)[i] = lo + (i : ℤ) := by
  simp [intRange]

theorem intRange_getD (lo hi : ℤ) (i : ℕ) (h : i < (hi + 1 - lo).toNat) :
    (intRange lo hi).getD i 0 = lo + i := by
  have hl : i < (intRange lo hi).length := by rw [intRange_length]; exact h
  rw [List.getD_eq_getElem?_getD, List.getElem?_eq_getElem hl, Option.getD_some]
  exact intRange_getElem lo hi i hl

theorem intRange_headD (lo hi : ℤ) (h : lo ≤ hi) :
    (intRange lo hi).headD 0 = lo := by
  have hl : 0 < (intRange lo hi).length := by rw [intRange_length]; omega
  rw [List.headD_eq_head?, List.head?_eq_getElem?, List.getElem?_eq_getElem hl,
    Option.getD_some, intRange_getElem]
  simp

theorem intRange_getLastD (lo hi : ℤ) (h : lo ≤ hi) :
    (intRange lo hi).getLastD 0 = hi := by
  have hl : (intRange lo hi).length - 1 < (intRange lo hi).length := by
    rw [intRange_length]; omega
  rw [List.getLastD_eq_getLast?, List.getLast?_eq_getElem?,
    List.getElem?_eq_getElem hl, Option.getD_some, intRange_getElem]
  rw [intRange_length]
  omega

/-- Reindexing a guarded sum: only the terms with `i ≤ k` survive, and they
enumerate `g 0, ..., g (N - i - 1)`. -/
theorem finset_shift_sum (N i : ℕ) (g : ℕ → ℚ) :
    (∑ k ∈ Finset.range N, if i ≤ k then g (k - i) else 0)
      = ∑ j ∈ Finset.range (N - i), g j := by
  induction N with
  | zero => simp
  | succ M ih =>
    rw [Finset.sum_range_succ, ih]
    by_cases hiM : i ≤ M
    · rw [if_pos hiM]
      have he : M + 1 - i = (M - i) + 1 := by omega
      rw [he, Finset.sum_range_succ]
    · rw [if_neg hiM]
      have he : M + 1 - i = M - i := by omega
      rw [he]
      ring

theorem conv_length (a b : List ℚ) :
    (conv a b).length = a.length + b.length - 1 := by
  rw [conv, List.length_map, List.length_range]

/-- Mass preservation of convolution: the total of `np.convolve(a, b)` is the
product of the totals. -/
theorem conv_sum (a b : List ℚ) : (conv a b).sum = a.sum * b.sum := by
  have h1 : (conv a b).sum
      = sumIdx (a.length + b.length - 1) (fun k =>
          sumIdx a.length (fun i =>
            if i ≤ k then a.getD i 0 * b.getD (k - i) 0 else 0)) := rfl
  rw [h1, sumIdx_eq_finset]
  calc
    ∑ k ∈ Finset.range (a.length + b.length - 1),
        sumIdx a.length (fun i =>
          if i ≤ k then a.getD i 0 * b.getD (k - i) 0 else 0)
      = ∑ k ∈ Finset.range (a.length + b.length - 1),
          ∑ i ∈ Finset.range a.length,
            (if i ≤ k then a.getD i 0 * b.getD (k - i) 0 else 0) :=
        Finset.sum_congr rfl (fun k _ => sumIdx_eq_finset _ _)
    _ = ∑ i ∈ Finset.range a.length,
          ∑ k ∈ Finset.range (a.length + b.length - 1),
            (if i ≤ k then a.getD i 0 * b.getD (k - i) 0 else 0) :=
        Finset.sum_comm
    _ = ∑ i ∈ Finset.range a.length,
          a.getD i 0 *
            ∑ k ∈ Finset.range (a.length + b.length - 1),
              (if i ≤ k then b.getD (k - i) 0 else 0) := by
        refine Finset.sum_congr rfl (fun i _ => ?_)
        rw [Finset.mul_sum]
        refine Finset.sum_congr rfl (fun k _ => ?_)
        by_cases hik : i ≤ k
        · rw [if_pos hik, if_pos hik]
        · rw [if_neg hik, if_neg hik, mul_zero]
    _ = ∑ i ∈ Finset.range a.length, a.getD i 0 * b.sum := by
        refine Finset.sum_congr rfl (fun i hi => ?_)
        congr 1
        rw [finset_shift_sum _ _ (fun j => b.getD j 0), ← sumIdx_eq_finset]
        exact sumIdx_getD b _ (by
          have := Finset.mem_range.mp hi
          omega)
    _ = a.sum * b.sum := by
        rw [← Finset.sum_mul, ← sumIdx_eq_finset, sumIdx_getD a _ le_rfl]

theorem convPow_sum (d : List ℚ) (t : ℕ) : (convPow d t).sum = d.sum ^ (t + 1) := by
  induction t with
  | zero => rw [convPow, pow_one]
  | succ m ih => rw [convPow, conv_sum, ih]; ring

theorem convPow_length (d : List ℚ) (t : ℕ) (hd : 1 ≤ d.length) :
    (convPow d t).length = (t + 1) * d.length - t := by
  induction t with
  | zero => rw [convPow]; omega
  | succ m ih =>
    rw [convPow, conv_length, ih]
    have h1 : m + 1 ≤ (m + 1) * d.length := by
      calc m + 1 = (m + 1) * 1 := by ring
        _ ≤ (m + 1) * d.length := Nat.mul_le_mul_left _ hd
    have h2 : (m + 1 + 1) * d.length = (m + 1) * d.length + d.length := by ring
    omega

open AleatoryVariable

theorem sumIdx_one (f : ℕ → ℚ) : sumIdx 1 f = f 0 := by
  rw [sumIdx_succ, sumIdx_zero, zero_add]

theorem getD_map_range (L : ℕ) (f : ℕ → ℚ) (j : ℕ) (hj : j < L) :
    ((List.range L).map f).getD j 0 = f j := by
  rw [List.getD_eq_getElem?_getD, List.getElem?_map, List.getElem?_range hj]
  rfl

theorem list_eq_of_getD (a b : List ℚ) (hlen : a.length = b.length)
    (h : ∀ j, j < a.length → a.getD j 0 = b.getD j 0) : a = b := by
  apply List.ext_getElem hlen
  intro i h1 h2
  have h3 := h i h1
  rwa [List.getD_eq_getElem?_getD, List.getD_eq_getElem?_getD,
    List.getElem?_eq_getElem h1, List.getElem?_eq_getElem h2,
    Option.getD_some, Option.getD_some] at h3

theorem clampIdx_of_lt (L : ℕ) (s : ℕ) (h : s < L) : clampIdx L (s : ℤ) = s := by
  unfold clampIdx
  split_ifs with h1 h2 <;> omega

theorem clampIdx_lt (L : ℕ) (hL : 0 < L) (v : ℤ) : clampIdx L v < L := by
  unfold clampIdx
  split_ifs <;> omega

theorem sub_dist_length (x y : AleatoryVariable) :
    (sub x y).distribution.length = x.domain.length := by
  simp [sub]

/-- C2: `subtract` keeps the left operand's domain and length, whatever the
right operand's domain size or offset is. -/
theorem sub_preserves_domain (x y : AleatoryVariable) :
    (sub x y).domain = x.domain ∧
      (sub x y).distribution.length = x.domain.length :=
  ⟨rfl, sub_dist_length x y⟩

/-- Entry `j` of `sub x ⟨[c], [1]⟩`: the single subtrahend value `c`
contributes `x`'s mass at `s` to the clamped bin `s - c`. -/
theorem sub_single_getD (dom : List ℤ) (dist : List ℚ) (c : ℤ) (j : ℕ)
    (hj : j < dom.length) :
    (sub ⟨dom, dist⟩ ⟨[c], [1]⟩).distribution.getD j 0
      = sumIdx dom.length (fun s =>
          if clampIdx dom.length ((s : ℤ) - c) = j then dist.getD s 0 else 0) := by
  show ((List.range dom.length).map _).getD j 0 = _
  rw [getD_map_range _ _ j hj]
  dsimp only
  refine sumIdx_congr _ _ _ (fun s _ => ?_)
  rw [show ([(1 : ℚ)].length) = 1 from rfl, sumIdx_one]
  simp

/-- `sub x ⟨[0], [1]⟩` reproduces an aligned `x` entry for entry. -/
theorem sub_point_zero (dom : List ℤ) (dist : List ℚ)
    (hlen : dist.length = dom.length) :
    sub ⟨dom, dist⟩ ⟨[0], [1]⟩ = ⟨dom, dist⟩ := by
  have hd : (sub ⟨dom, dist⟩ ⟨[0], [1]⟩).domain = dom := rfl
  have he : (sub ⟨dom, dist⟩ ⟨[0], [1]⟩).distribution = dist := by
    refine list_eq_of_getD _ _ (by rw [sub_dist_length]; exact hlen.symm)
      (fun j hj => ?_)
    have hj2 : j < dom.length := by
      have h5 := sub_dist_length ⟨dom, dist⟩ ⟨[0], [1]⟩
      dsimp only at h5
      omega
    rw [sub_single_getD dom dist 0 j hj2]
    have h1 : sumIdx dom.length (fun s =>
        if clampIdx dom.length ((s : ℤ) - 0) = j then dist.getD s 0 else 0)
        = sumIdx dom.length (fun s => if s = j then dist.getD s 0 else 0) := by
      refine sumIdx_congr _ _ _ (fun s hs => ?_)
      rw [sub_zero, clampIdx_of_lt _ _ hs]
    rw [h1, sumIdx_eq_finset, Finset.sum_ite_eq' (Finset.range dom.length),
      if_pos (Finset.mem_range.mpr hj2)]
  cases hsub : sub ⟨dom, dist⟩ ⟨[0], [1]⟩ with
  | mk d2 m2 =>
    rw [hsub] at hd he
    simp only at hd he
    rw [hd, he]

/-- C4: adding the point mass at 0 reproduces `x` exactly (same domain,
same mass vector entry for entry). -/
theorem add_pointMass_zero_identity (x : AleatoryVariable)
    (hlen : x.distribution.length = x.domain.length) :
    add x (from_exact 0 none) = x := by
  cases x with
  | mk dom dist =>
    have hmap : (from_exact 0 none).domain.map (fun z => z * (-1)) = [0] := by decide
    rw [add, hmap]
    exact sub_point_zero dom dist (by simpa using hlen)

/-- C4 witness. -/
theorem add_pointMass_zero_identity_witness :
    add ⟨[0, 1, 2], [0, 1, 0]⟩ (from_exact 0 none) = ⟨[0, 1, 2], [0, 1, 0]⟩ :=
  add_pointMass_zero_identity ⟨[0, 1, 2], [0, 1, 0]⟩ (by decide)

/-- Total mass of a `subtract` result: every joint term lands in some
(possibly clamped) bin, so the total is the product of the operand totals. -/
theorem sub_sum (x y : AleatoryVariable)
    (hx : x.distribution.length = x.domain.length) :
    (sub x y).distribution.sum = x.distribution.sum * y.distribution.sum := by
  have h0 : (sub x y).distribution.sum
      = sumIdx x.domain.length (fun j =>
          sumIdx x.domain.length (fun s =>
            sumIdx y.distribution.length (fun o =>
              if clampIdx x.domain.length ((s : ℤ) - y.domain.getD o 0) = j
              then y.distribution.getD o 0 * x.distribution.getD s 0
              else 0))) := rfl
  rcases Nat.eq_zero_or_pos x.domain.length with hL0 | hLpos
  · rw [h0, hL0, sumIdx_zero]
    have hnil : x.distribution = [] := List.length_eq_zero.mp (by omega)
    rw [hnil, List.sum_nil, zero_mul]
  · rw [h0]
    have e1 : sumIdx x.domain.length (fun j =>
        sumIdx x.domain.length (fun s =>
          sumIdx y.distribution.length (fun o =>
            if clampIdx x.domain.length ((s : ℤ) - y.domain.getD o 0) = j
            then y.distribution.getD o 0 * x.distribution.getD s 0
            else 0)))
        = ∑ j ∈ Finset.range x.domain.length, ∑ s ∈ Finset.range x.domain.length,
            ∑ o ∈ Finset.range y.distribution.length,
              if clampIdx x.domain.length ((s : ℤ) - y.domain.getD o 0) = j
              then y.distribution.getD o 0 * x.distribution.getD s 0
              else 0 := by
      rw [sumIdx_eq_finset]
      refine Finset.sum_congr rfl (fun j _ => ?_)
      rw [sumIdx_eq_finset]
      exact Finset.sum_congr rfl (fun s _ => sumIdx_eq_finset _ _)
    rw [e1, Finset.sum_comm]
    have e2 : ∀ s ∈ Finset.range x.domain.length,
        (∑ j ∈ Finset.range x.domain.length,
          ∑ o ∈ Finset.range y.distribution.length,
            if clampIdx x.domain.length ((s : ℤ) - y.domain.getD o 0) = j
            then y.distribution.getD o 0 * x.distribution.getD s 0
            else 0)
        = x.distribution.getD s 0 *
            ∑ o ∈ Finset.range y.distribution.length, y.distribution.getD o 0 := by
      intro s _
      rw [Finset.sum_comm, Finset.mul_sum]
      refine Finset.sum_congr rfl (fun o _ => ?_)
      rw [Finset.sum_ite_eq (Finset.range x.domain.length),
        if_pos (Finset.mem_range.mpr (clampIdx_lt _ hLpos _))]
      ring
    rw [Finset.sum_congr rfl e2, ← Finset.sum_mul]
    have e3 : (∑ o ∈ Finset.range y.distribution.length, y.distribution.getD o 0)
        = y.distribution.sum := by
      rw [← sumIdx_eq_finset]
      exact sumIdx_getD y.distribution _ le_rfl
    have e4 : (∑ s ∈ Finset.range x.domain.length, x.distribution.getD s 0)
        = x.distribution.sum := by
      rw [← sumIdx_eq_finset, ← hx]
      exact sumIdx_getD x.distribution _ le_rfl
    rw [e3, e4]

/-- C1: `subtract` preserves total probability mass multiplicatively (the
saturating clamp discards nothing), so does `add`, and normalized operands
give a normalized result. -/
theorem sub_add_total_mass (x y : AleatoryVariable)
    (hx : x.distribution.length = x.domain.length)
    (hy : y.distribution.length = y.domain.length) :
    (sub x y).distribution.sum = x.distribution.sum * y.distribution.sum ∧
    (add x y).distribution.sum = x.distribution.sum * y.distribution.sum ∧
    (x.distribution.sum = 1 → y.distribution.sum = 1 →
      (sub x y).distribution.sum = 1 ∧ (add x y).distribution.sum = 1) := by
  have h1 := sub_sum x y hx
  have h2 : (add x y).distribution.sum
      = x.distribution.sum * y.distribution.sum := by
    rw [add]
    exact sub_sum x ⟨y.domain.map (fun z => z * (-1)), y.distribution⟩ hx
  exact ⟨h1, h2, fun hx1 hy1 => by rw [h1, h2, hx1, hy1, mul_one]; exact ⟨rfl, rfl⟩⟩

/-- C1 witness. -/
theorem sub_add_total_mass_witness :
    (sub ⟨[0, 1], [1/2, 1/2]⟩ ⟨[0, 1, 2], [1/3, 1/3, 1/3]⟩).distribution.sum = 1 ∧
    (add ⟨[0, 1], [1/2, 1/2]⟩ ⟨[0, 1, 2], [1/3, 1/3, 1/3]⟩).distribution.sum = 1 :=
  (sub_add_total_mass ⟨[0, 1], [1/2, 1/2]⟩ ⟨[0, 1, 2], [1/3, 1/3, 1/3]⟩
    (by decide) (by decide)).2.2 (by norm_num) (by norm_num)

/-- C3: `power(x, 1)` is `x` itself, `power(x, 0)` is the point mass at 0,
and for positive `n` the domain of `power(x, -n)` is the sign-negated,
order-reversed mirror of `power(x, n)`'s domain, with mass order reversed. -/
theorem pow_one_zero_neg_mirror (x : AleatoryVariable) (n : ℤ)
    (hc : contiguous x.domain) (hn : 1 ≤ n) :
    pow x 1 = x ∧
    pow x 0 = ⟨[0], [1]⟩ ∧
    (pow x (-n)).domain = ((pow x n).domain.map (fun z => -z)).reverse ∧
    (pow x (-n)).distribution = (pow x n).distribution.reverse := by
  refine ⟨?_, rfl, ?_, ?_⟩
  · have h1 : pow x 1
        = ⟨intRange (x.domain.headD 0) (x.domain.getLastD 0), x.distribution⟩ := by
      norm_num [pow, convPow]
    rw [h1, ← hc]
  · have hne : n ≠ 0 := by omega
    have hpos : 0 < n := by omega
    have hneg : ¬(0 < -n) := by omega
    have hne2 : -n ≠ 0 := by omega
    rw [pow, pow, if_neg hne2, if_neg hneg, if_neg hne, if_pos hpos,
      Int.natAbs_neg]
  · have hne : n ≠ 0 := by omega
    have hpos : 0 < n := by omega
    have hneg : ¬(0 < -n) := by omega
    have hne2 : -n ≠ 0 := by omega
    rw [pow, pow, if_neg hne2, if_neg hneg, if_neg hne, if_pos hpos,
      Int.natAbs_neg]

/-- C3 witness. -/
theorem pow_one_zero_neg_mirror_witness :
    pow ⟨[1, 2], [1/2, 1/2]⟩ 1 = ⟨[1, 2], [1/2, 1/2]⟩ ∧
    pow ⟨[1, 2], [1/2, 1/2]⟩ 0 = ⟨[0], [1]⟩ ∧
    (pow ⟨[1, 2], [1/2, 1/2]⟩ (-2)).domain
      = ((pow ⟨[1, 2], [1/2, 1/2]⟩ 2).domain.map (fun z => -z)).reverse :=
  ⟨(pow_one_zero_neg_mirror ⟨[1, 2], [1/2, 1/2]⟩ 2 (by decide) (by decide)).1,
   (pow_one_zero_neg_mirror ⟨[1, 2], [1/2, 1/2]⟩ 2 (by decide) (by decide)).2.1,
   (pow_one_zero_neg_mirror ⟨[1, 2], [1/2, 1/2]⟩ 2 (by decide) (by decide)).2.2.1⟩

theorem contiguous_le (l : List ℤ) (h : contiguous l) :
    l.headD 0 ≤ l.getLastD 0 := by
  by_contra hlt
  push_neg at hlt
  have hlen : l.length = 0 := by
    conv_lhs => rw [h]
    rw [intRange_length]
    omega
  have hnil : l = [] := List.length_eq_zero.mp hlen
  rw [hnil] at hlt
  simp at hlt

theorem contiguous_length (l : List ℤ) (h : contiguous l) :
    l.length = (l.getLastD 0 + 1 - l.headD 0).toNat := by
  conv_lhs => rw [h]
  rw [intRange_length]

theorem contiguous_getD (l : List ℤ) (h : contiguous l) (i : ℕ) (hi : i < l.length) :
    l.getD i 0 = l.headD 0 + i := by
  conv_lhs => rw [h]
  rw [intRange_getD]
  rw [contiguous_length l h] at hi
  omega

theorem cumsum_getD (l : List ℚ) (k : ℕ) (hk : k < l.length) :
    (cumsum l).getD k 0 = (l.take (k + 1)).sum := by
  rw [cumsum, getD_map_range _ _ k hk]

theorem take_sum_eq_sumIdx (l : List ℚ) (m : ℕ) (hm : m ≤ l.length) :
    (l.take m).sum = sumIdx m (fun i => l.getD i 0) := by
  rw [← sumIdx_getD (l.take m) m (by rw [List.length_take]; omega)]
  refine sumIdx_congr _ _ _ (fun i hi => ?_)
  rw [List.getD_eq_getElem?_getD, List.getD_eq_getElem?_getD,
    List.getElem?_take, if_pos hi]

/-- C5: `prob_against` returns `[0,1]` for a target at or below the domain
minimum, `[1,0]` for a target above the domain maximum, and otherwise the
rounded `[cdf[target - lo - 1], 1 - cdf[target - lo - 1]]`, the cdf entry
being exactly the mass of outcomes strictly below the target. -/
theorem prob_against_spec (d : Dice) (target : ℤ)
    (hcont : contiguous d.values)
    (hlen : d.pmf.length = d.values.length)
    (hcdf : d.cdf = cumsum d.pmf) :
    (target ≤ d.values.headD 0 → d.prob_against target = [0, 1]) ∧
    (d.values.getLastD 0 < target → d.prob_against target = [1, 0]) ∧
    (d.values.headD 0 < target → target ≤ d.values.getLastD 0 →
      d.prob_against target
          = [round2 (d.cdf.getD (target - d.values.headD 0 - 1).toNat 0),
             round2 (1 - d.cdf.getD (target - d.values.headD 0 - 1).toNat 0)] ∧
      d.cdf.getD (target - d.values.headD 0 - 1).toNat 0
          = sumIdx d.pmf.length (fun i =>
              if d.values.getD i 0 < target then d.pmf.getD i 0 else 0)) := by
  have hle := contiguous_le d.values hcont
  refine ⟨fun h1 => ?_, fun h2 => ?_, fun h3 h4 => ⟨?_, ?_⟩⟩
  · simp only [Dice.prob_against]
    rw [if_pos h1]
  · simp only [Dice.prob_against]
    rw [if_neg (by omega), if_pos h2]
  · simp only [Dice.prob_against]
    rw [if_neg (by omega), if_neg (by omega)]
  · have hvl := contiguous_length d.values hcont
    have hk : (target - d.values.headD 0 - 1).toNat < d.pmf.length := by omega
    have hk1 : (target - d.values.headD 0 - 1).toNat + 1 ≤ d.pmf.length := by omega
    rw [hcdf, cumsum_getD _ _ hk, take_sum_eq_sumIdx _ _ hk1,
      sumIdx_eq_finset, sumIdx_eq_finset]
    have hsub : (∑ i ∈ Finset.range d.pmf.length,
        if d.values.getD i 0 < target then d.pmf.getD i 0 else 0)
        = ∑ i ∈ Finset.range ((target - d.values.headD 0 - 1).toNat + 1),
            if d.values.getD i 0 < target then d.pmf.getD i 0 else 0 := by
      refine (Finset.sum_subset (Finset.range_subset.mpr hk1) ?_).symm
      intro i hi hni
      have hiL : i < d.pmf.length := Finset.mem_range.mp hi
      have hik : ¬(i < (target - d.values.headD 0 - 1).toNat + 1) :=
        fun hc => hni (Finset.mem_range.mpr hc)
      have hgi := contiguous_getD d.values hcont i (by omega)
      rw [if_neg (by rw [hgi]; omega)]
    rw [hsub]
    refine Finset.sum_congr rfl (fun i hi => ?_)
    have hilt : i < (target - d.values.headD 0 - 1).toNat + 1 := Finset.mem_range.mp hi
    have hgi := contiguous_getD d.values hcont i (by omega)
    rw [if_pos (by rw [hgi]; omega)]

/-- C5 witness. -/
theorem prob_against_spec_witness :
    (mkDice 1 6).prob_against 3
        = [round2 ((mkDice 1 6).cdf.getD
             ((3 : ℤ) - (mkDice 1 6).values.headD 0 - 1).toNat 0),
           round2 (1 - (mkDice 1 6).cdf.getD
             ((3 : ℤ) - (mkDice 1 6).values.headD 0 - 1).toNat 0)] ∧
    (mkDice 1 6).cdf.getD ((3 : ℤ) - (mkDice 1 6).values.headD 0 - 1).toNat 0
        = sumIdx (mkDice 1 6).pmf.length (fun i =>
            if (mkDice 1 6).values.getD i 0 < 3 then (mkDice 1 6).pmf.getD i 0
            else 0) :=
  (prob_against_spec (mkDice 1 6) 3 (by decide) (by decide) rfl).2.2
    (by decide) (by decide)

theorem intRange_cons (lo hi : ℤ) (h : lo ≤ hi) :
    intRange lo hi = lo :: intRange (lo + 1) hi := by
  have hn : (hi + 1 - lo).toNat = (hi + 1 - (lo + 1)).toNat + 1 := by omega
  rw [intRange, hn, List.range_succ_eq_map, List.map_cons, List.map_map]
  rw [intRange]
  congr 1
  · simp
  · refine List.map_congr_left (fun i _ => ?_)
    show lo + ((i + 1 : ℕ) : ℤ) = lo + 1 + (i : ℤ)
    push_cast
    ring

theorem findIdx?_intRange (lo hi v : ℤ) (h1 : lo ≤ v) (h2 : v ≤ hi) :
    (intRange lo hi).findIdx? (fun z => decide (z = v)) = some (v - lo).toNat := by
  have hm : ∀ m : ℕ, ∀ lo : ℤ, lo ≤ v → v ≤ hi → (v - lo).toNat = m →
      (intRange lo hi).findIdx? (fun z => decide (z = v)) = some m := by
    intro m
    induction m with
    | zero =>
      intro lo h1 h2 hm0
      have hv : v = lo := by omega
      rw [intRange_cons lo hi (by omega), List.findIdx?_cons]
      rw [if_pos (by simp [hv])]
    | succ m ih =>
      intro lo h1 h2 hms
      have hlt : lo < v := by omega
      rw [intRange_cons lo hi (by omega), List.findIdx?_cons]
      rw [if_neg (by simp; omega), List.findIdx?_succ,
        ih (lo + 1) (by omega) h2 (by omega)]
      rfl
  exact hm (v - lo).toNat lo h1 h2 rfl

theorem intRange_head? (lo hi : ℤ) (h : lo ≤ hi) :
    (intRange lo hi).head? = some lo := by
  rw [intRange_cons lo hi h]
  rfl

theorem sumIdx_add (n : ℕ) (f g : ℕ → ℚ) :
    sumIdx n (fun i => f i + g i) = sumIdx n f + sumIdx n g := by
  rw [sumIdx_eq_finset, sumIdx_eq_finset, sumIdx_eq_finset, Finset.sum_add_distrib]

/-- A list of nonnegative rationals with positive sum has a positive entry. -/
theorem exists_pos_entry (l : List ℚ) (hnn : ∀ q ∈ l, 0 ≤ q) (hpos : 0 < l.sum) :
    ∃ i, i < l.length ∧ 0 < l.getD i 0 := by
  by_contra hno
  push_neg at hno
  have hz : ∀ i, i < l.length → l.getD i 0 = 0 := by
    intro i hi
    have h1 := hno i hi
    have h2 : l.getD i 0 ∈ l := by
      rw [List.getD_eq_getElem?_getD, List.getElem?_eq_getElem hi, Option.getD_some]
      exact List.getElem_mem hi
    have := hnn _ h2
    linarith
  have : l.sum = 0 := by
    rw [← sumIdx_getD l l.length le_rfl, sumIdx_congr _ _ (fun _ => 0) hz,
      sumIdx_const_zero]
  linarith

theorem mapM_option_eq_some {α β : Type} (f : α → Option β) (g : α → β)
    (l : List α) (h : ∀ a ∈ l, f a = some (g a)) :
    l.mapM f = some (l.map g) := by
  induction l with
  | nil => rfl
  | cons a t ih =>
    rw [List.mapM_cons, h a (List.mem_cons_self a t), ih (fun b hb => h b (List.mem_cons_of_mem a hb))]
    rfl

theorem accumSlices_nil (L : ℕ) : (accumSlices L []).sum = 0 := by
  have h : accumSlices L [] = (List.range L).map (fun _ => 0) := rfl
  rw [h]
  exact sumIdx_const_zero L

/-- The total accumulated by slice-addition is the total of the slices,
provided each slice fits inside the target vector. -/
theorem accumSlices_sum (L : ℕ) (cs : List (ℕ × List ℚ))
    (h : ∀ c ∈ cs, c.1 + c.2.length ≤ L) :
    (accumSlices L cs).sum = (cs.map (fun c => c.2.sum)).sum := by
  induction cs with
  | nil => rw [accumSlices_nil]; rfl
  | cons c t ih =>
    have hsplit : (accumSlices L (c :: t)).sum
        = sumIdx L (fun j =>
            (if c.1 ≤ j ∧ j - c.1 < c.2.length then c.2.getD (j - c.1) 0 else 0))
          + (accumSlices L t).sum := by
      have e : accumSlices L (c :: t)
          = (List.range L).map (fun j =>
              (if c.1 ≤ j ∧ j - c.1 < c.2.length then c.2.getD (j - c.1) 0 else 0)
                + (t.map (fun d =>
                    if d.1 ≤ j ∧ j - d.1 < d.2.length then d.2.getD (j - d.1) 0
                    else 0)).sum) := by
        rw [accumSlices]
        refine List.map_congr_left (fun j _ => ?_)
        rw [List.map_cons, List.sum_cons]
      rw [e]
      exact sumIdx_add L _ _
    rw [hsplit, ih (fun d hd => h d (List.mem_cons_of_mem c hd)),
      List.map_cons, List.sum_cons]
    congr 1
    have hc := h c (List.mem_cons_self c t)
    have e2 : sumIdx L (fun j =>
        if c.1 ≤ j ∧ j - c.1 < c.2.length then c.2.getD (j - c.1) 0 else 0)
        = sumIdx L (fun j => if c.1 ≤ j then c.2.getD (j - c.1) 0 else 0) := by
      refine sumIdx_congr _ _ _ (fun j hj => ?_)
      by_cases h1 : c.1 ≤ j
      · by_cases h2 : j - c.1 < c.2.length
        · rw [if_pos ⟨h1, h2⟩, if_pos h1]
        · rw [if_neg (fun hand => h2 hand.2), if_pos h1,
            List.getD_eq_default _ _ (by omega)]
      · rw [if_neg (fun hand => h1 hand.1), if_neg h1]
    rw [e2, sumIdx_eq_finset,
      finset_shift_sum L c.1 (fun j => c.2.getD j 0), ← sumIdx_eq_finset,
      sumIdx_getD _ _ (by omega)]

theorem sum_map_mul (l : List ℚ) (c : ℚ) :
    (l.map (fun q => q * c)).sum = l.sum * c := by
  induction l with
  | nil => simp
  | cons a t ih => simp [ih, add_mul]

theorem pow_zero_def (x : AleatoryVariable) : pow x 0 = ⟨[0], [1]⟩ := rfl

theorem pow_pos_def (x : AleatoryVariable) (v : ℤ) (hv : 0 < v) :
    pow x v = ⟨intRange (x.domain.headD 0 * v) (x.domain.getLastD 0 * v),
               convPow x.distribution (v.natAbs - 1)⟩ := by
  rw [pow, if_neg (by omega), if_pos hv, Int.natAbs_of_nonneg (by omega : 0 ≤ v)]

theorem pow_dist_sum (x : AleatoryVariable) (v : ℤ) (hv : 0 ≤ v) :
    (pow x v).distribution.sum = x.distribution.sum ^ v.natAbs := by
  rcases eq_or_lt_of_le hv with h0 | hpos
  · rw [← h0]
    show ([1] : List ℚ).sum = x.distribution.sum ^ (0 : ℤ).natAbs
    simp
  · rw [pow_pos_def x v hpos]
    show (convPow x.distribution (v.natAbs - 1)).sum = _
    rw [convPow_sum]
    congr 1
    omega

theorem contiguous_ne_nil (l : List ℤ) (h : contiguous l) : 1 ≤ l.length := by
  have h1 := contiguous_le l h
  rw [contiguous_length l h]
  omega

theorem pow_pos_lengths (x : AleatoryVariable) (v : ℤ) (hv : 0 < v)
    (hcx : contiguous x.domain)
    (hlx : x.distribution.length = x.domain.length) :
    (pow x v).domain
        = intRange (x.domain.headD 0 * v) (x.domain.getLastD 0 * v) ∧
    (pow x v).distribution.length = (pow x v).domain.length := by
  rw [pow_pos_def x v hv]
  refine ⟨rfl, ?_⟩
  have hd1 : 1 ≤ x.distribution.length := by
    rw [hlx]; exact contiguous_ne_nil x.domain hcx
  have hk1 : 1 ≤ v.natAbs := by omega
  have hkd : v.natAbs ≤ v.natAbs * x.distribution.length := by
    calc v.natAbs = v.natAbs * 1 := by ring
      _ ≤ v.natAbs * x.distribution.length := Nat.mul_le_mul_left _ hd1
  have hlen1 : (convPow x.distribution (v.natAbs - 1)).length
      = (v.natAbs - 1 + 1) * x.distribution.length - (v.natAbs - 1) :=
    convPow_length _ _ hd1
  have hco : v.natAbs - 1 + 1 = v.natAbs := by omega
  rw [hco] at hlen1
  have hxeq : x.domain.getLastD 0
      = x.domain.headD 0 + (x.distribution.length : ℤ) - 1 := by
    have h1 := contiguous_length x.domain hcx
    have h2 := contiguous_le x.domain hcx
    omega
  have hveq : ((v.natAbs : ℕ) : ℤ) = v := Int.natAbs_of_nonneg (by omega)
  have e1 : x.domain.getLastD 0 * v + 1 - x.domain.headD 0 * v
      = ((x.distribution.length : ℤ) - 1) * v + 1 := by
    rw [hxeq]; ring
  have e2 : ((v.natAbs * x.distribution.length : ℕ) : ℤ)
      = (x.distribution.length : ℤ) * v := by
    rw [Nat.cast_mul, hveq]
    ring
  have e3 : ((x.distribution.length : ℤ) - 1) * v + 1
      = (x.distribution.length : ℤ) * v - v + 1 := by ring
  show (convPow x.distribution (v.natAbs - 1)).length = (intRange _ _).length
  rw [hlen1, intRange_length]
  omega

theorem mulContrib_eq_some (x : AleatoryVariable) (lo hi yv : ℤ) (yp : ℚ)
    (hcx : contiguous x.domain)
    (hlx : x.distribution.length = x.domain.length)
    (hyv : 0 ≤ yv)
    (hlov : lo ≤ x.domain.headD 0 * yv)
    (hhiv : x.domain.getLastD 0 * yv ≤ hi) :
    mulContrib x (intRange lo hi) (intRange lo hi).length yv yp
        = some ((x.domain.headD 0 * yv - lo).toNat,
                (pow x yv).distribution.map (fun q => q * yp)) ∧
    (x.domain.headD 0 * yv - lo).toNat
        + ((pow x yv).distribution.map (fun q => q * yp)).length
      ≤ (intRange lo hi).length := by
  have hx0l := contiguous_le x.domain hcx
  rcases eq_or_lt_of_le hyv with h0 | hpos
  · -- yv = 0 : the power is the point mass at 0
    have hz : yv = 0 := h0.symm
    subst hz
    have hlo0 : lo ≤ 0 := by
      have h5 := hlov
      rwa [mul_zero] at h5
    have hhi0 : 0 ≤ hi := by
      have h5 := hhiv
      rwa [mul_zero] at h5
    have hL : (intRange lo hi).length = (hi + 1 - lo).toNat := intRange_length lo hi
    have hfind := findIdx?_intRange lo hi 0 hlo0 hhi0
    constructor
    · have e : mulContrib x (intRange lo hi) (intRange lo hi).length 0 yp
          = ((intRange lo hi).findIdx? (fun z => decide (z = 0))).bind (fun start =>
              if min (start + 1) (intRange lo hi).length - start = 1
              then some (start, [1 * yp]) else none) := rfl
      rw [e, hfind]
      show (if min ((0 - lo).toNat + 1) (intRange lo hi).length - (0 - lo).toNat = 1
            then some ((0 - lo).toNat, [1 * yp]) else none) = _
      rw [if_pos (by omega)]
      rw [mul_zero]
      rfl
    · rw [mul_zero]
      show (0 - lo).toNat + ([(1 : ℚ)].map (fun q => q * yp)).length ≤ _
      rw [List.length_map]
      show (0 - lo).toNat + 1 ≤ _
      omega
  · -- yv ≥ 1 : the power is the stretched convolution
    have hlens := pow_pos_lengths x yv hpos hcx hlx
    have hx0v : x.domain.headD 0 * yv ≤ x.domain.getLastD 0 * yv :=
      mul_le_mul_of_nonneg_right hx0l hyv
    have hhead : (pow x yv).domain.head? = some (x.domain.headD 0 * yv) := by
      rw [hlens.1]
      exact intRange_head? _ _ hx0v
    have hfind : (intRange lo hi).findIdx?
          (fun z => decide (z = x.domain.headD 0 * yv))
        = some (x.domain.headD 0 * yv - lo).toNat :=
      findIdx?_intRange lo hi _ hlov (le_trans hx0v hhiv)
    have hdl : (pow x yv).domain.length
        = (x.domain.getLastD 0 * yv + 1 - x.domain.headD 0 * yv).toNat := by
      rw [hlens.1, intRange_length]
    have hL : (intRange lo hi).length = (hi + 1 - lo).toNat := intRange_length lo hi
    have hfit : (x.domain.headD 0 * yv - lo).toNat + (pow x yv).domain.length
        ≤ (intRange lo hi).length := by
      rw [hdl, hL]
      omega
    have hcond : min ((x.domain.headD 0 * yv - lo).toNat + (pow x yv).domain.length)
          (intRange lo hi).length - (x.domain.headD 0 * yv - lo).toNat
        = (pow x yv).distribution.length := by
      rw [hlens.2]
      omega
    constructor
    · have e : mulContrib x (intRange lo hi) (intRange lo hi).length yv yp
          = (pow x yv).domain.head?.bind (fun t0 =>
              ((intRange lo hi).findIdx? (fun z => decide (z = t0))).bind (fun start =>
                if min (start + (pow x yv).domain.length)
                    (intRange lo hi).length - start
                    = (pow x yv).distribution.length
                then some (start, (pow x yv).distribution.map (fun q => q * yp))
                else none)) := rfl
      rw [e, hhead]
      show ((intRange lo hi).findIdx?
          (fun z => decide (z = x.domain.headD 0 * yv))).bind _ = _
      rw [hfind]
      show (if min ((x.domain.headD 0 * yv - lo).toNat + (pow x yv).domain.length)
              (intRange lo hi).length - (x.domain.headD 0 * yv - lo).toNat
              = (pow x yv).distribution.length
            then some ((x.domain.headD 0 * yv - lo).toNat,
                       (pow x yv).distribution.map (fun q => q * yp))
            else none) = _
      rw [if_pos hcond]
    · rw [List.length_map, hlens.2]
      exact hfit

theorem getD_mem (l : List ℚ) (i : ℕ) (hi : i < l.length) : l.getD i 0 ∈ l := by
  rw [List.getD_eq_getElem?_getD, List.getElem?_eq_getElem hi, Option.getD_some]
  exact List.getElem_mem hi

/-- C9: on well-formed operands with nonnegative integer domains and positive
total mass, `multiply` is total — every per-value power's minimum domain
value is found by the exact lookup, every weighted slice fits, and the final
renormalization divides by a strictly positive accumulated total. -/
theorem mul_safety (x y : AleatoryVariable)
    (hcx : contiguous x.domain) (hcy : contiguous y.domain)
    (hlx : x.distribution.length = x.domain.length)
    (hly : y.distribution.length = y.domain.length)
    (hx0 : 0 ≤ x.domain.headD 0) (hy0 : 0 ≤ y.domain.headD 0)
    (hxs : 0 < x.distribution.sum) (hys : 0 < y.distribution.sum)
    (hynn : ∀ q ∈ y.distribution, 0 ≤ q) :
    ∃ acc, mulAccum x y = some acc ∧ 0 < acc.sum ∧
      mul x y = some ⟨intRange (x.domain.headD 0 * y.domain.headD 0)
                               (x.domain.getLastD 0 * y.domain.getLastD 0),
                      acc.map (fun q => q / acc.sum)⟩ := by
  have hx0l := contiguous_le x.domain hcx
  have hyL := contiguous_length y.domain hcy
  have hcontrib : ∀ o ∈ List.range y.domain.length,
      mulContrib x
          (intRange (x.domain.headD 0 * y.domain.headD 0)
                    (x.domain.getLastD 0 * y.domain.getLastD 0))
          (intRange (x.domain.headD 0 * y.domain.headD 0)
                    (x.domain.getLastD 0 * y.domain.getLastD 0)).length
          (y.domain.getD o 0) (y.distribution.getD o 0)
        = some ((x.domain.headD 0 * y.domain.getD o 0
                  - x.domain.headD 0 * y.domain.headD 0).toNat,
                (pow x (y.domain.getD o 0)).distribution.map
                  (fun q => q * y.distribution.getD o 0)) ∧
      (x.domain.headD 0 * y.domain.getD o 0
          - x.domain.headD 0 * y.domain.headD 0).toNat
        + ((pow x (y.domain.getD o 0)).distribution.map
            (fun q => q * y.distribution.getD o 0)).length
        ≤ (intRange (x.domain.headD 0 * y.domain.headD 0)
                    (x.domain.getLastD 0 * y.domain.getLastD 0)).length := by
    intro o ho
    have ho2 : o < y.domain.length := List.mem_range.mp ho
    have hgo := contiguous_getD y.domain hcy o ho2
    have hyv : 0 ≤ y.domain.getD o 0 := by omega
    have hyge : y.domain.headD 0 ≤ y.domain.getD o 0 := by omega
    have hyle : y.domain.getD o 0 ≤ y.domain.getLastD 0 := by omega
    exact mulContrib_eq_some x _ _ _ _ hcx hlx hyv
      (mul_le_mul_of_nonneg_left hyge hx0)
      (mul_le_mul_of_nonneg_left hyle (le_trans hx0 hx0l))
  have hmap := mapM_option_eq_some
    (fun o => mulContrib x
        (intRange (x.domain.headD 0 * y.domain.headD 0)
                  (x.domain.getLastD 0 * y.domain.getLastD 0))
        (intRange (x.domain.headD 0 * y.domain.headD 0)
                  (x.domain.getLastD 0 * y.domain.getLastD 0)).length
        (y.domain.getD o 0) (y.distribution.getD o 0))
    (fun o => ((x.domain.headD 0 * y.domain.getD o 0
                  - x.domain.headD 0 * y.domain.headD 0).toNat,
               (pow x (y.domain.getD o 0)).distribution.map
                 (fun q => q * y.distribution.getD o 0)))
    (List.range y.domain.length)
    (fun o ho => (hcontrib o ho).1)
  have hacc : mulAccum x y
      = some (accumSlices
          (intRange (x.domain.headD 0 * y.domain.headD 0)
                    (x.domain.getLastD 0 * y.domain.getLastD 0)).length
          ((List.range y.domain.length).map
            (fun o => ((x.domain.headD 0 * y.domain.getD o 0
                          - x.domain.headD 0 * y.domain.headD 0).toNat,
                       (pow x (y.domain.getD o 0)).distribution.map
                         (fun q => q * y.distribution.getD o 0))))) := by
    have e : mulAccum x y
        = ((List.range y.domain.length).mapM
            (fun o => mulContrib x
              (intRange (x.domain.headD 0 * y.domain.headD 0)
                        (x.domain.getLastD 0 * y.domain.getLastD 0))
              (intRange (x.domain.headD 0 * y.domain.headD 0)
                        (x.domain.getLastD 0 * y.domain.getLastD 0)).length
              (y.domain.getD o 0) (y.distribution.getD o 0))).map
            (fun cs => accumSlices
              (intRange (x.domain.headD 0 * y.domain.headD 0)
                        (x.domain.getLastD 0 * y.domain.getLastD 0)).length cs) := rfl
    rw [e, hmap]
    rfl
  have hsum1 : (accumSlices
        (intRange (x.domain.headD 0 * y.domain.headD 0)
                  (x.domain.getLastD 0 * y.domain.getLastD 0)).length
        ((List.range y.domain.length).map
          (fun o => ((x.domain.headD 0 * y.domain.getD o 0
                        - x.domain.headD 0 * y.domain.headD 0).toNat,
                     (pow x (y.domain.getD o 0)).distribution.map
                       (fun q => q * y.distribution.getD o 0))))).sum
      = sumIdx y.domain.length (fun o =>
          ((pow x (y.domain.getD o 0)).distribution.map
            (fun q => q * y.distribution.getD o 0)).sum) := by
    rw [accumSlices_sum _ _ (by
      intro c hc
      obtain ⟨o, ho, rfl⟩ := List.mem_map.mp hc
      exact (hcontrib o ho).2), List.map_map]
    rfl
  have hterm : ∀ o, o < y.domain.length →
      ((pow x (y.domain.getD o 0)).distribution.map
        (fun q => q * y.distribution.getD o 0)).sum
      = x.distribution.sum ^ (y.domain.getD o 0).natAbs
          * y.distribution.getD o 0 := by
    intro o ho
    have hgo := contiguous_getD y.domain hcy o ho
    rw [sum_map_mul, pow_dist_sum x _ (by omega)]
  have hnn : ∀ o, o < y.domain.length →
      0 ≤ ((pow x (y.domain.getD o 0)).distribution.map
        (fun q => q * y.distribution.getD o 0)).sum := by
    intro o ho
    rw [hterm o ho]
    exact mul_nonneg (le_of_lt (pow_pos hxs _))
      (hynn _ (getD_mem y.distribution o (by omega)))
  have hpos : 0 < sumIdx y.domain.length (fun o =>
      ((pow x (y.domain.getD o 0)).distribution.map
        (fun q => q * y.distribution.getD o 0)).sum) := by
    obtain ⟨i, hi, hip⟩ := exists_pos_entry y.distribution hynn hys
    have hi2 : i < y.domain.length := by omega
    have hipos : 0 < ((pow x (y.domain.getD i 0)).distribution.map
        (fun q => q * y.distribution.getD i 0)).sum := by
      rw [hterm i hi2]
      exact mul_pos (pow_pos hxs _) hip
    rw [sumIdx_eq_finset]
    calc (0 : ℚ) < ((pow x (y.domain.getD i 0)).distribution.map
          (fun q => q * y.distribution.getD i 0)).sum := hipos
      _ ≤ _ := Finset.single_le_sum
          (fun o ho => hnn o (Finset.mem_range.mp ho))
          (Finset.mem_range.mpr hi2)
  refine ⟨_, hacc, by rw [hsum1]; exact hpos, ?_⟩
  show (mulAccum x y).map _ = _
  rw [hacc]
  rfl

/-- C9 witness. -/
theorem mul_safety_witness :
    ∃ acc, mulAccum ⟨[1], [1]⟩ ⟨[0, 1], [1/2, 1/2]⟩ = some acc ∧
      0 < acc.sum ∧
      mul ⟨[1], [1]⟩ ⟨[0, 1], [1/2, 1/2]⟩
        = some ⟨intRange (([1] : List ℤ).headD 0 * ([0, 1] : List ℤ).headD 0)
                         (([1] : List ℤ).getLastD 0 * ([0, 1] : List ℤ).getLastD 0),
                acc.map (fun q => q / acc.sum)⟩ :=
  mul_safety ⟨[1], [1]⟩ ⟨[0, 1], [1/2, 1/2]⟩ (by decide) (by decide)
    (by decide) (by decide) (by decide) (by decide)
    (by norm_num) (by norm_num) (by norm_num)

/-- C6: the code has no degenerate-distribution guard.  Multiplying by a
zero-total operand reaches the final normalization of `multiply` with an
accumulated total of exactly 0 and still returns a result (the division by
the zero total yields the zero vector here, as numpy yields NaNs), instead
of failing with a distinct validation error as the spec prescribes. -/
theorem mul_zero_total_no_guard :
    mulAccum ⟨[0], [1]⟩ ⟨[0], [0]⟩ = some [0] ∧
    ([(0 : ℚ)].sum = 0) ∧
    mul ⟨[0], [1]⟩ ⟨[0], [0]⟩ = some ⟨[0], [0]⟩ := by
  refine ⟨?_, by norm_num, ?_⟩
  · norm_num [mulAccum, mulContrib, pow, accumSlices, intRange, sumIdx,
      from_exact, List.findIdx?, List.mapM.loop, List.range_succ]
  · norm_num [mul, mulAccum, mulContrib, pow, accumSlices, intRange, sumIdx,
      from_exact, List.findIdx?, List.mapM.loop, List.range_succ]

theorem foldl_min_le_init (l : List ℤ) (init : ℤ) : l.foldl min init ≤ init := by
  induction l generalizing init with
  | nil => exact le_rfl
  | cons a t ih =>
    calc (a :: t).foldl min init = t.foldl min (min init a) := rfl
      _ ≤ min init a := ih (min init a)
      _ ≤ init := min_le_left _ _

theorem foldl_min_le_mem (l : List ℤ) (init a : ℤ) (ha : a ∈ l) :
    l.foldl min init ≤ a := by
  induction l generalizing init with
  | nil => cases ha
  | cons b t ih =>
    rcases List.mem_cons.mp ha with h1 | h2
    · subst h1
      calc (a :: t).foldl min init = t.foldl min (min init a) := rfl
        _ ≤ min init a := foldl_min_le_init t _
        _ ≤ a := min_le_right _ _
    · exact ih (min init b) h2

theorem foldl_max_ge_init (l : List ℤ) (init : ℤ) : init ≤ l.foldl max init := by
  induction l generalizing init with
  | nil => exact le_rfl
  | cons a t ih =>
    calc init ≤ max init a := le_max_left _ _
      _ ≤ t.foldl max (max init a) := ih (max init a)
      _ = (a :: t).foldl max init := rfl

theorem foldl_max_ge_mem (l : List ℤ) (init a : ℤ) (ha : a ∈ l) :
    a ≤ l.foldl max init := by
  induction l generalizing init with
  | nil => cases ha
  | cons b t ih =>
    rcases List.mem_cons.mp ha with h1 | h2
    · subst h1
      calc a ≤ max init a := le_max_right _ _
        _ ≤ t.foldl max (max init a) := foldl_max_ge_init t _
        _ = (a :: t).foldl max init := rfl
    · exact ih (max init b) h2

theorem accumSlices_length (L : ℕ) (cs : List (ℕ × List ℚ)) :
    (accumSlices L cs).length = L := by
  rw [accumSlices, List.length_map, List.length_range]

theorem accumSlices_getD (L : ℕ) (cs : List (ℕ × List ℚ)) (j : ℕ) (hj : j < L) :
    (accumSlices L cs).getD j 0
      = (cs.map (fun c =>
          if c.1 ≤ j ∧ j - c.1 < c.2.length then c.2.getD (j - c.1) 0 else 0)).sum := by
  rw [accumSlices, getD_map_range _ _ j hj]

theorem getD_map_div (l : List ℚ) (s : ℚ) (j : ℕ) :
    (l.map (fun q => q / s)).getD j 0 = l.getD j 0 / s := by
  rcases Nat.lt_or_ge j l.length with hj | hj
  · rw [List.getD_eq_getElem?_getD, List.getD_eq_getElem?_getD,
      List.getElem?_map, List.getElem?_eq_getElem hj]
    rfl
  · rw [List.getD_eq_default _ _ (by rw [List.length_map]; omega),
      List.getD_eq_default _ _ hj, zero_div]

theorem sum_map_ones {α : Type} (l : List α) (f : α → ℚ)
    (h : ∀ a ∈ l, f a = 1) : (l.map f).sum = l.length := by
  induction l with
  | nil => rfl
  | cons a t ih =>
    rw [List.map_cons, List.sum_cons, h a (List.mem_cons_self a t),
      ih (fun b hb => h b (List.mem_cons_of_mem a hb)), List.length_cons]
    push_cast
    ring

/-- Mass at a value of a contiguous aligned (values, mass) pair is the single
indexed entry when the value is in range, and 0 otherwise. -/
theorem massAt_contiguous (values : List ℤ) (mass : List ℚ)
    (hc : contiguous values) (v : ℤ) :
    massAt values mass v
      = if values.headD 0 ≤ v ∧ v ≤ values.getLastD 0
        then mass.getD (v - values.headD 0).toNat 0
        else 0 := by
  have hlen := contiguous_length values hc
  have hle := contiguous_le values hc
  by_cases hin : values.headD 0 ≤ v ∧ v ≤ values.getLastD 0
  · rw [if_pos hin]
    rw [massAt]
    have e : sumIdx values.length (fun i =>
        if values.getD i 0 = v then mass.getD i 0 else 0)
        = sumIdx values.length (fun i =>
            if i = (v - values.headD 0).toNat then mass.getD i 0 else 0) := by
      refine sumIdx_congr _ _ _ (fun i hi => ?_)
      rw [contiguous_getD values hc i hi]
      by_cases he : values.headD 0 + (i : ℤ) = v
      · rw [if_pos he, if_pos (by omega)]
      · rw [if_neg he, if_neg (by omega)]
    rw [e, sumIdx_eq_finset, Finset.sum_ite_eq' (Finset.range values.length),
      if_pos (Finset.mem_range.mpr (by omega))]
  · rw [if_neg hin, massAt]
    have e : sumIdx values.length (fun i =>
        if values.getD i 0 = v then mass.getD i 0 else 0)
        = sumIdx values.length (fun _ => 0) := by
      refine sumIdx_congr _ _ _ (fun i hi => ?_)
      rw [contiguous_getD values hc i hi, if_neg (by omega)]
    rw [e, sumIdx_const_zero]

theorem contiguous_intRange (lo hi : ℤ) (h : lo ≤ hi) :
    contiguous (intRange lo hi) := by
  rw [contiguous, intRange_headD lo hi h, intRange_getLastD lo hi h]

/-- C10: `Dice.combine` of `k` operands is the equal-weight mixture — at
every value the combined pmf equals the sum of the operands' pmfs at that
value divided by `k`, whatever the operands' spreads or cardinalities. -/
theorem combine_equal_weight_mixture (d0 : Dice) (rest : List Dice)
    (hc : ∀ d ∈ d0 :: rest, contiguous d.values)
    (hl : ∀ d ∈ d0 :: rest, d.pmf.length = d.values.length)
    (hs : ∀ d ∈ d0 :: rest, d.pmf.sum = 1) :
    ∃ tot, Dice.combine (d0 :: rest) = some tot ∧
      ∀ v : ℤ, massAt tot.values tot.pmf v
        = ((d0 :: rest).map (fun d => massAt d.values d.pmf v)).sum
            / ((d0 :: rest).length : ℚ) := by
  set lb := (rest.map (fun d => d.values.headD 0)).foldl min (d0.values.headD 0)
    with hlb
  set ub := (rest.map (fun d => d.values.getLastD 0)).foldl max (d0.values.getLastD 0)
    with hub
  set A := lb - (if lb ≤ 0 then 0 else lb) with hA
  set B := ub - (if 0 ≤ ub then 0 else ub) with hB
  have hA0 : A ≤ lb ∧ A ≤ 0 := by rw [hA]; split_ifs <;> omega
  have hB0 : ub ≤ B ∧ 0 ≤ B := by rw [hB]; split_ifs <;> omega
  have hAB : A ≤ B := le_trans hA0.2 hB0.2
  have hlball : ∀ d ∈ d0 :: rest, lb ≤ d.values.headD 0 := by
    intro d hd
    rcases List.mem_cons.mp hd with h1 | h2
    · rw [h1, hlb]
      exact foldl_min_le_init _ _
    · rw [hlb]
      exact foldl_min_le_mem _ _ _ (List.mem_map_of_mem _ h2)
  have huball : ∀ d ∈ d0 :: rest, d.values.getLastD 0 ≤ ub := by
    intro d hd
    rcases List.mem_cons.mp hd with h1 | h2
    · rw [h1, hub]
      exact foldl_max_ge_init _ _
    · rw [hub]
      exact foldl_max_ge_mem _ _ _ (List.mem_map_of_mem _ h2)
  have hL := intRange_length A B
  have hper : ∀ d ∈ d0 :: rest,
      ((intRange A B).findIdx? (fun z => decide (z = d.values.headD 0))).bind
        (fun start =>
          if min (start + d.values.length) (intRange A B).length - start
              = d.pmf.length
          then some (start, d.pmf) else none)
      = some ((d.values.headD 0 - A).toNat, d.pmf) := by
    intro d hd
    have hcd := hc d hd
    have hld := hl d hd
    have hdle := contiguous_le d.values hcd
    have hvl := contiguous_length d.values hcd
    have h1 : A ≤ d.values.headD 0 := le_trans hA0.1 (hlball d hd)
    have h2 : d.values.headD 0 ≤ B := by
      have := huball d hd
      omega
    rw [findIdx?_intRange A B _ h1 h2]
    show (if min ((d.values.headD 0 - A).toNat + d.values.length)
            (intRange A B).length - (d.values.headD 0 - A).toNat = d.pmf.length
          then some ((d.values.headD 0 - A).toNat, d.pmf) else none) = _
    rw [if_pos (by
      rw [hld]
      have := huball d hd
      omega)]
  have hmapM := mapM_option_eq_some
    (fun d => ((intRange A B).findIdx? (fun z => decide (z = d.values.headD 0))).bind
      (fun start =>
        if min (start + d.values.length) (intRange A B).length - start
            = d.pmf.length
        then some (start, d.pmf) else none))
    (fun d => ((d.values.headD 0 - A).toNat, d.pmf)) (d0 :: rest) hper
  have hcomb : Dice.combine (d0 :: rest)
      = some ⟨accumSlices (intRange A B).length
                ((d0 :: rest).map (fun d => ((d.values.headD 0 - A).toNat, d.pmf))),
              intRange A B,
              (accumSlices (intRange A B).length
                ((d0 :: rest).map (fun d => ((d.values.headD 0 - A).toNat, d.pmf)))).map
                (fun q => q / (accumSlices (intRange A B).length
                  ((d0 :: rest).map (fun d => ((d.values.headD 0 - A).toNat, d.pmf)))).sum),
              cumsum ((accumSlices (intRange A B).length
                ((d0 :: rest).map (fun d => ((d.values.headD 0 - A).toNat, d.pmf)))).map
                (fun q => q / (accumSlices (intRange A B).length
                  ((d0 :: rest).map (fun d => ((d.values.headD 0 - A).toNat, d.pmf)))).sum))⟩ := by
    have e : Dice.combine (d0 :: rest)
        = ((d0 :: rest).mapM
            (fun d => ((intRange A B).findIdx?
                (fun z => decide (z = d.values.headD 0))).bind
              (fun start =>
                if min (start + d.values.length) (intRange A B).length - start
                    = d.pmf.length
                then some (start, d.pmf) else none))).map
          (fun cs =>
            ⟨accumSlices (intRange A B).length cs,
             intRange A B,
             (accumSlices (intRange A B).length cs).map
               (fun q => q / (accumSlices (intRange A B).length cs).sum),
             cumsum ((accumSlices (intRange A B).length cs).map
               (fun q => q / (accumSlices (intRange A B).length cs).sum))⟩) := rfl
    rw [e, hmapM]
    rfl
  have hfits : ∀ c ∈ (d0 :: rest).map
      (fun d => ((d.values.headD 0 - A).toNat, d.pmf)),
      c.1 + c.2.length ≤ (intRange A B).length := by
    intro c hcmem
    obtain ⟨d, hd, rfl⟩ := List.mem_map.mp hcmem
    have hcd := hc d hd
    have hld := hl d hd
    have hdle := contiguous_le d.values hcd
    have hvl := contiguous_length d.values hcd
    have h1 : A ≤ d.values.headD 0 := le_trans hA0.1 (hlball d hd)
    have h2 : d.values.getLastD 0 ≤ B := le_trans (huball d hd) hB0.1
    show (d.values.headD 0 - A).toNat + d.pmf.length ≤ _
    rw [hld]
    omega
  have hpsum : (accumSlices (intRange A B).length
      ((d0 :: rest).map (fun d => ((d.values.headD 0 - A).toNat, d.pmf)))).sum
      = ((d0 :: rest).length : ℚ) := by
    rw [accumSlices_sum _ _ hfits, List.map_map]
    rw [show ((fun c : ℕ × List ℚ => c.2.sum) ∘
        (fun d : Dice => ((d.values.headD 0 - A).toNat, d.pmf)))
        = fun d : Dice => d.pmf.sum from rfl]
    exact sum_map_ones _ _ hs
  refine ⟨_, hcomb, fun v => ?_⟩
  show massAt (intRange A B) _ v = _
  rw [massAt_contiguous _ _ (contiguous_intRange A B hAB) v,
    intRange_headD A B hAB, intRange_getLastD A B hAB]
  by_cases hin : A ≤ v ∧ v ≤ B
  · rw [if_pos hin, getD_map_div, hpsum]
    have hj : (v - A).toNat < (intRange A B).length := by
      rw [hL]; omega
    rw [accumSlices_getD _ _ _ hj, List.map_map]
    congr 1
    refine congrArg List.sum (List.map_congr_left (fun d hd => ?_))
    have hcd := hc d hd
    have hld := hl d hd
    have hdle := contiguous_le d.values hcd
    have hvl := contiguous_length d.values hcd
    have h1 : A ≤ d.values.headD 0 := le_trans hA0.1 (hlball d hd)
    have h2 : d.values.getLastD 0 ≤ B := le_trans (huball d hd) hB0.1
    show (if (d.values.headD 0 - A).toNat ≤ (v - A).toNat ∧
            (v - A).toNat - (d.values.headD 0 - A).toNat < d.pmf.length
          then d.pmf.getD ((v - A).toNat - (d.values.headD 0 - A).toNat) 0
          else 0)
        = massAt d.values d.pmf v
    rw [massAt_contiguous _ _ hcd v]
    by_cases hdin : d.values.headD 0 ≤ v ∧ v ≤ d.values.getLastD 0
    · rw [if_pos hdin, if_pos (by rw [hld]; omega)]
      congr 1
      omega
    · rw [if_neg hdin, if_neg (by rw [hld]; omega)]
  · rw [if_neg hin]
    have hz : ((d0 :: rest).map (fun d => massAt d.values d.pmf v)).sum = 0 := by
      have e : (d0 :: rest).map (fun d => massAt d.values d.pmf v)
          = (d0 :: rest).map (fun _ => (0 : ℚ)) := by
        refine List.map_congr_left (fun d hd => ?_)
        have hcd := hc d hd
        have hdle := contiguous_le d.values hcd
        have h1 : A ≤ d.values.headD 0 := le_trans hA0.1 (hlball d hd)
        have h2 : d.values.getLastD 0 ≤ B := le_trans (huball d hd) hB0.1
        rw [massAt_contiguous _ _ hcd v, if_neg (by omega)]
      rw [e]
      simp
    rw [hz, zero_div]

/-- C10 witness. -/
theorem combine_equal_weight_mixture_witness :
    ∃ tot, Dice.combine [mkDice 1 2, mkDice 1 3] = some tot ∧
      ∀ v : ℤ, massAt tot.values tot.pmf v
        = ([mkDice 1 2, mkDice 1 3].map (fun d => massAt d.values d.pmf v)).sum
            / (([mkDice 1 2, mkDice 1 3] : List Dice).length : ℚ) :=
  combine_equal_weight_mixture (mkDice 1 2) [mkDice 1 3]
    (by decide) (by decide)
    (by norm_num [mkDice, distributionValues, convPow, intRange, List.replicate])

/-- Subtracting a point mass at `c ≥ 0` shifts an aligned distribution down
by `c` bins: bin 0 accumulates the lowest `c+1` bins, interior bin `i` takes
bin `i+c`, and the top `c` bins become zero. -/
theorem sub_point_shift (dom : List ℤ) (dist : List ℚ) (c : ℤ) (hc : 0 ≤ c)
    (hL : c + 1 ≤ dom.length) :
    (sub ⟨dom, dist⟩ ⟨[c], [1]⟩).domain = dom ∧
    (sub ⟨dom, dist⟩ ⟨[c], [1]⟩).distribution.getD 0 0
      = sumIdx (c.toNat + 1) (fun s => dist.getD s 0) ∧
    (∀ i : ℕ, 1 ≤ i → i + c.toNat < dom.length →
      (sub ⟨dom, dist⟩ ⟨[c], [1]⟩).distribution.getD i 0
        = dist.getD (i + c.toNat) 0) ∧
    (∀ i : ℕ, dom.length ≤ i + c.toNat → i < dom.length →
      (sub ⟨dom, dist⟩ ⟨[c], [1]⟩).distribution.getD i 0 = 0) := by
  have hclamp : ∀ s : ℕ, s < dom.length →
      clampIdx dom.length ((s : ℤ) - c) = if s ≤ c.toNat then 0 else s - c.toNat := by
    intro s hs
    unfold clampIdx
    split_ifs <;> omega
  refine ⟨rfl, ?_, ?_, ?_⟩
  · rw [sub_single_getD dom dist c 0 (by omega)]
    have e : sumIdx dom.length (fun s =>
        if clampIdx dom.length ((s : ℤ) - c) = 0 then dist.getD s 0 else 0)
        = sumIdx dom.length (fun s =>
            if s ≤ c.toNat then dist.getD s 0 else 0) := by
      refine sumIdx_congr _ _ _ (fun s hs => ?_)
      rw [hclamp s hs]
      split_ifs <;> first | rfl | (exfalso; omega)
    rw [e, sumIdx_eq_finset, sumIdx_eq_finset]
    refine (Finset.sum_subset (Finset.range_subset.mpr (by omega)) ?_).symm.trans
      (Finset.sum_congr rfl (fun s hsm => ?_))
    · intro s hsm hns
      rw [if_neg (by
        intro hle
        exact hns (Finset.mem_range.mpr (by omega)))]
    · rw [if_pos (by
        have := Finset.mem_range.mp hsm
        omega)]
  · intro i h1 h2
    rw [sub_single_getD dom dist c i (by omega)]
    have e : sumIdx dom.length (fun s =>
        if clampIdx dom.length ((s : ℤ) - c) = i then dist.getD s 0 else 0)
        = sumIdx dom.length (fun s =>
            if s = i + c.toNat then dist.getD s 0 else 0) := by
      refine sumIdx_congr _ _ _ (fun s hs => ?_)
      rw [hclamp s hs]
      split_ifs <;> first | rfl | (exfalso; omega)
    rw [e, sumIdx_eq_finset]
    have := Finset.sum_ite_eq' (Finset.range dom.length) (i + c.toNat)
      (fun s => dist.getD s 0)
    rw [this, if_pos (Finset.mem_range.mpr (by omega))]
  · intro i h1 h2
    rw [sub_single_getD dom dist c i (by omega)]
    have e : sumIdx dom.length (fun s =>
        if clampIdx dom.length ((s : ℤ) - c) = i then dist.getD s 0 else 0)
        = sumIdx dom.length (fun _ => 0) := by
      refine sumIdx_congr _ _ _ (fun s hs => ?_)
      rw [hclamp s hs]
      split_ifs <;> first | rfl | (exfalso; omega)
    rw [e, sumIdx_const_zero]

/-- Opening `advance_round`: on success the new state appends exactly one
round, increments the round counter, and keeps `max_rounds`. -/
theorem advance_round_structure (m : CombatModel) (ev : Option RoundModel)
    (m2 : CombatModel) (h : m.advance_round ev = some m2) :
    ∃ aD bD, AleatoryVariable.mul m.a_dmg ((ev.getD {}).a_hits.getD m.a_hits) = some aD ∧
      AleatoryVariable.mul m.b_dmg ((ev.getD {}).b_hits.getD m.b_hits) = some bD ∧
      m2 = { m with
        round_number := m.round_number + 1
        rounds := m.rounds ++
          [{ a_hp := some ((ev.getD {}).a_hp.getD
               (AleatoryVariable.sub ((m.rounds.getD m.round_number {}).a_hp.getD ⟨[], []⟩)
                 ((ev.getD {}).b_damage.getD bD)))
             a_hits := some ((ev.getD {}).a_hits.getD m.a_hits)
             a_damage := some ((ev.getD {}).a_damage.getD aD)
             b_hp := some ((ev.getD {}).b_hp.getD
               (AleatoryVariable.sub ((m.rounds.getD m.round_number {}).b_hp.getD ⟨[], []⟩)
                 ((ev.getD {}).a_damage.getD aD)))
             b_hits := some ((ev.getD {}).b_hits.getD m.b_hits)
             b_damage := some ((ev.getD {}).b_damage.getD bD) }] } := by
  have e : m.advance_round ev
      = (AleatoryVariable.mul m.a_dmg ((ev.getD {}).a_hits.getD m.a_hits)).bind
          (fun aD => (AleatoryVariable.mul m.b_dmg ((ev.getD {}).b_hits.getD m.b_hits)).bind
            (fun bD => some { m with
              round_number := m.round_number + 1
              rounds := m.rounds ++
                [{ a_hp := some ((ev.getD {}).a_hp.getD
                     (AleatoryVariable.sub
                       ((m.rounds.getD m.round_number {}).a_hp.getD ⟨[], []⟩)
                       ((ev.getD {}).b_damage.getD bD)))
                   a_hits := some ((ev.getD {}).a_hits.getD m.a_hits)
                   a_damage := some ((ev.getD {}).a_damage.getD aD)
                   b_hp := some ((ev.getD {}).b_hp.getD
                     (AleatoryVariable.sub
                       ((m.rounds.getD m.round_number {}).b_hp.getD ⟨[], []⟩)
                       ((ev.getD {}).a_damage.getD aD)))
                   b_hits := some ((ev.getD {}).b_hits.getD m.b_hits)
                   b_damage := some ((ev.getD {}).b_damage.getD bD) }] })) := rfl
  rw [e] at h
  rcases h1 : AleatoryVariable.mul m.a_dmg ((ev.getD {}).a_hits.getD m.a_hits) with _ | aD
  · rw [h1] at h
    exact absurd h (by simp)
  rcases h2 : AleatoryVariable.mul m.b_dmg ((ev.getD {}).b_hits.getD m.b_hits) with _ | bD
  · rw [h1, h2] at h
    exact absurd h (by simp)
  rw [h1, h2] at h
  simp only [Option.some_bind] at h
  refine ⟨aD, bD, rfl, rfl, ?_⟩
  exact (Option.some.inj h).symm

theorem head_append_left {α : Type} (l l2 : List α) (h : l ≠ []) :
    (l ++ l2).head? = l.head? := by
  cases l with
  | nil => exact absurd rfl h
  | cons a t => rfl

/-- C7: when a round's evidence fixes `a_damage` to the exact point mass at
6 and does not override `b_hp`, the newly appended round's `b_hp` keeps the
previous round's domain, its lowest bin accumulates all previous mass at
values at most 6 above the domain minimum, each interior bin `i` holds the
previous bin `i + 6`, and the top six bins are zero. -/
theorem evidence_damage_six_shifts_b_hp
    (m : CombatModel) (ev : RoundModel) (B : AleatoryVariable) (m2 : CombatModel)
    (hprev : (m.rounds.getD m.round_number {}).b_hp = some B)
    (hev_dmg : ev.a_damage = some ⟨[6], [1]⟩)
    (hev_bhp : ev.b_hp = none)
    (hL : 7 ≤ B.domain.length)
    (hadv : m.advance_round (some ev) = some m2) :
    ∃ r R, m2.rounds.getLast? = some r ∧ r.b_hp = some R ∧
      R.domain = B.domain ∧
      R.distribution.getD 0 0 = sumIdx 7 (fun s => B.distribution.getD s 0) ∧
      (∀ i : ℕ, 1 ≤ i → i + 6 < B.domain.length →
        R.distribution.getD i 0 = B.distribution.getD (i + 6) 0) ∧
      (∀ i : ℕ, B.domain.length ≤ i + 6 → i < B.domain.length →
        R.distribution.getD i 0 = 0) := by
  obtain ⟨aD, bD, h1, h2, hm2⟩ := advance_round_structure m (some ev) m2 hadv
  subst hm2
  cases B with
  | mk dom dist =>
    have hBs : ((some ev).getD {}).b_hp.getD
        (AleatoryVariable.sub ((m.rounds.getD m.round_number {}).b_hp.getD ⟨[], []⟩)
          (((some ev).getD {}).a_damage.getD aD))
        = AleatoryVariable.sub ⟨dom, dist⟩ ⟨[6], [1]⟩ := by
      show ev.b_hp.getD
          (AleatoryVariable.sub ((m.rounds.getD m.round_number {}).b_hp.getD ⟨[], []⟩)
            (ev.a_damage.getD aD)) = _
      rw [hev_bhp, hprev, hev_dmg]
      rfl
    have h6 : ((6 : ℤ)).toNat = 6 := rfl
    have hshift := sub_point_shift dom dist 6 (by norm_num)
      (by simp only at hL; omega)
    rw [h6] at hshift
    refine ⟨_, AleatoryVariable.sub ⟨dom, dist⟩ ⟨[6], [1]⟩,
      List.getLast?_concat _, ?_, ?_, ?_, ?_, ?_⟩
    · show some (((some ev).getD {}).b_hp.getD _) = _
      rw [hBs]
    · exact hshift.1
    · exact hshift.2.1
    · exact fun i hi1 hi2 => hshift.2.2.1 i hi1 (by simp only at hi2 ⊢; omega)
    · exact fun i hi1 hi2 => hshift.2.2.2 i (by simp only at hi1 ⊢; omega)
        (by simp only at hi2 ⊢; omega)

/-- C7 witness. -/
theorem evidence_damage_six_shifts_b_hp_witness :
    ∃ m2 r R,
      CombatModel.advance_round
        { max_rounds := 10,
          rounds := [{ b_hp := some ⟨[0, 1, 2, 3, 4, 5, 6, 7],
            [1/8, 1/8, 1/8, 1/8, 1/8, 1/8, 1/8, 1/8]⟩ }],
          round_number := 0,
          a_hits := ⟨[1], [1]⟩, b_hits := ⟨[1], [1]⟩,
          a_dmg := ⟨[1], [1]⟩, b_dmg := ⟨[1], [1]⟩ }
        (some { a_damage := some ⟨[6], [1]⟩ }) = some m2 ∧
      m2.rounds.getLast? = some r ∧ r.b_hp = some R ∧
      R.domain = [0, 1, 2, 3, 4, 5, 6, 7] ∧
      R.distribution.getD 0 0 = sumIdx 7 (fun s =>
        ([1/8, 1/8, 1/8, 1/8, 1/8, 1/8, 1/8, 1/8] : List ℚ).getD s 0) := by
  obtain ⟨m2, hm2⟩ := Option.isSome_iff_exists.mp (by
    norm_num [CombatModel.advance_round, mul, mulAccum, mulContrib, pow,
      accumSlices, intRange, sumIdx, List.findIdx?, List.mapM.loop,
      List.range_succ, convPow] :
    (CombatModel.advance_round
        { max_rounds := 10,
          rounds := [{ b_hp := some ⟨[0, 1, 2, 3, 4, 5, 6, 7],
            [1/8, 1/8, 1/8, 1/8, 1/8, 1/8, 1/8, 1/8]⟩ }],
          round_number := 0,
          a_hits := ⟨[1], [1]⟩, b_hits := ⟨[1], [1]⟩,
          a_dmg := ⟨[1], [1]⟩, b_dmg := ⟨[1], [1]⟩ }
        (some { a_damage := some ⟨[6], [1]⟩ })).isSome)
  obtain ⟨r, R, hlast, hbhp, hdom, h0, h5, h9⟩ :=
    evidence_damage_six_shifts_b_hp
      { max_rounds := 10,
        rounds := [{ b_hp := some ⟨[0, 1, 2, 3, 4, 5, 6, 7],
          [1/8, 1/8, 1/8, 1/8, 1/8, 1/8, 1/8, 1/8]⟩ }],
        round_number := 0,
        a_hits := ⟨[1], [1]⟩, b_hits := ⟨[1], [1]⟩,
        a_dmg := ⟨[1], [1]⟩, b_dmg := ⟨[1], [1]⟩ }
      { a_damage := some ⟨[6], [1]⟩ }
      ⟨[0, 1, 2, 3, 4, 5, 6, 7], [1/8, 1/8, 1/8, 1/8, 1/8, 1/8, 1/8, 1/8]⟩ m2
      rfl rfl rfl (by decide) hm2
  exact ⟨m2, r, R, hm2, hlast, hbhp, hdom, h0⟩

theorem map_sum_sumIdx {α : Type} (l : List α) (f : α → ℚ) :
    (l.map f).sum = sumIdx l.length (fun i => (l.map f).getD i 0) :=
  (sumIdx_getD (l.map f) l.length (by rw [List.length_map])).symm

theorem getD_map_int (l : List ℤ) (f : ℤ → ℚ) (j : ℕ) (hj : j < l.length) :
    (l.map f).getD j 0 = f (l.getD j 0) := by
  rw [List.getD_eq_getElem?_getD, List.getD_eq_getElem?_getD,
    List.getElem?_map, List.getElem?_eq_getElem hj]
  rfl

/-- The bounded `from_exact` builds the point mass at `value` over
`[lb, ub]`: a normalized distribution whose whole mass sits at `value`. -/
theorem from_exact_point (value lb ub : ℤ) (h1 : lb ≤ value) (h2 : value ≤ ub) :
    (from_exact value (some (lb, ub))).domain = intRange lb ub ∧
    (from_exact value (some (lb, ub))).distribution.sum = 1 ∧
    massAt (from_exact value (some (lb, ub))).domain
      (from_exact value (some (lb, ub))).distribution value = 1 := by
  have hlen := intRange_length lb ub
  have hmap : ∀ i, i < (intRange lb ub).length →
      ((intRange lb ub).map (fun v => if v = value then (1 : ℚ) else 0)).getD i 0
        = if i = (value - lb).toNat then 1 else 0 := by
    intro i hi
    rw [getD_map_int _ _ i hi, intRange_getD lb ub i (by omega)]
    by_cases he : lb + (i : ℤ) = value
    · rw [if_pos he, if_pos (by omega)]
    · rw [if_neg he, if_neg (by omega)]
  have hsum : ((intRange lb ub).map (fun v => if v = value then (1 : ℚ) else 0)).sum
      = 1 := by
    rw [map_sum_sumIdx,
      sumIdx_congr _ _ (fun i => if i = (value - lb).toNat then (1 : ℚ) else 0) hmap,
      sumIdx_eq_finset,
      Finset.sum_ite_eq' (Finset.range (intRange lb ub).length) ((value - lb).toNat)
        (fun _ => (1 : ℚ)),
      if_pos (Finset.mem_range.mpr (by omega))]
  refine ⟨rfl, hsum, ?_⟩
  show massAt (intRange lb ub)
    ((intRange lb ub).map (fun v => if v = value then (1 : ℚ) else 0)) value = 1
  rw [massAt_contiguous _ _ (contiguous_intRange lb ub (by omega)) value,
    intRange_headD lb ub (by omega), intRange_getLastD lb ub (by omega),
    if_pos ⟨h1, h2⟩, hmap _ (by omega), if_pos rfl]

/-- Driving the fold of `simulate` preserves the stored history's head and
grows its length by one per successful `advance_round`. -/
theorem foldlM_hist (evf : ℕ → Option RoundModel) (l : List ℕ)
    (m m2 : CombatModel) (hne : m.rounds ≠ [])
    (h : l.foldlM (fun s _ => s.advance_round (evf (s.round_number + 1))) m
      = some m2) :
    m2.rounds.length = m.rounds.length + l.length ∧
    m2.rounds.head? = m.rounds.head? ∧
    m2.max_rounds = m.max_rounds := by
  induction l generalizing m with
  | nil =>
    rw [List.foldlM_nil] at h
    have : m = m2 := Option.some.inj h
    subst this
    exact ⟨rfl, rfl, rfl⟩
  | cons a t ih =>
    rw [List.foldlM_cons] at h
    rcases h1 : m.advance_round (evf (m.round_number + 1)) with _ | m1
    · rw [h1] at h
      exact absurd h (by simp)
    · rw [h1] at h
      obtain ⟨aD, bD, hm1, hm2, hstruct⟩ :=
        advance_round_structure m _ m1 h1
      subst hstruct
      obtain ⟨hl1, hh1, hx1⟩ := ih _ (by
        intro hc
        dsimp only at hc
        exact absurd (List.append_eq_nil.mp hc).2 (by simp)) h
      dsimp only at hl1 hh1 hx1
      rw [List.length_append] at hl1
      rw [head_append_left _ _ hne] at hh1
      refine ⟨?_, hh1, hx1⟩
      rw [hl1]
      simp only [List.length_cons, List.length_nil]
      omega

/-- C8: one `simulate` call on a freshly constructed engine drives rounds
`1..max_rounds-1` in order, appending exactly one round state per round, so
the history ends with exactly `max_rounds` entries whose first is the
construction-time round 0, holding both factions' health as point masses of
probability 1 at their starting health over the domain `[0, health+1]`. -/
theorem simulate_history_spec (a b : Character) (mr : ℕ)
    (evf : ℕ → Option RoundModel) (m2 : CombatModel)
    (hha : 0 ≤ a.health) (hhb : 0 ≤ b.health) (hmr : 1 ≤ mr)
    (hsim : (CombatModel.init a b mr).simulate evf = some m2) :
    m2.rounds.length = mr ∧
    m2.rounds.head? = some
      { a_hp := some (from_exact a.health (some (0, a.health + 1)))
        b_hp := some (from_exact b.health (some (0, b.health + 1))) } ∧
    (from_exact a.health (some (0, a.health + 1))).domain
      = intRange 0 (a.health + 1) ∧
    (from_exact a.health (some (0, a.health + 1))).distribution.sum = 1 ∧
    massAt (from_exact a.health (some (0, a.health + 1))).domain
      (from_exact a.health (some (0, a.health + 1))).distribution a.health = 1 ∧
    (from_exact b.health (some (0, b.health + 1))).domain
      = intRange 0 (b.health + 1) ∧
    (from_exact b.health (some (0, b.health + 1))).distribution.sum = 1 ∧
    massAt (from_exact b.health (some (0, b.health + 1))).domain
      (from_exact b.health (some (0, b.health + 1))).distribution b.health = 1 := by
  have hfold := foldlM_hist evf (List.range (mr - 1)) (CombatModel.init a b mr) m2
    (by
      intro hc
      have : ((CombatModel.init a b mr).rounds).length = 1 := rfl
      rw [hc] at this
      exact absurd this (by simp)) hsim
  obtain ⟨hlen, hhead, hmax⟩ := hfold
  have hA := from_exact_point a.health 0 (a.health + 1) (by omega) (by omega)
  have hB := from_exact_point b.health 0 (b.health + 1) (by omega) (by omega)
  refine ⟨?_, ?_, hA.1, hA.2.1, hA.2.2, hB.1, hB.2.1, hB.2.2⟩
  · rw [hlen, List.length_range]
    have : ((CombatModel.init a b mr).rounds).length = 1 := rfl
    omega
  · rw [hhead]
    rfl

/-- C8 witness. -/
theorem simulate_history_spec_witness :
    ∃ m2, (CombatModel.init
        ⟨1, 1, mkDice 1 1, mkDice 1 1, 1⟩
        ⟨1, 1, mkDice 1 1, mkDice 1 1, 1⟩ 2).simulate (fun _ => none) = some m2 ∧
      m2.rounds.length = 2 ∧
      (from_exact (1 : ℤ) (some (0, 1 + 1))).distribution.sum = 1 := by
  obtain ⟨m2, hm2⟩ := Option.isSome_iff_exists.mp (by
    simp [CombatModel.simulate, CombatModel.init, CombatModel.advance_round,
      mkDice, distributionValues, convPow, boonDistribution, from_dice, from_hit,
      Dice.prob_against, pow, mul, mulAccum, mulContrib, accumSlices, intRange,
      sumIdx, sub, add, clampIdx, from_exact, cumsum, round2, roundHalfEven,
      List.findIdx?, List.mapM.loop, List.range_succ, List.foldlM, massAt,
      List.replicate, Int.toNat_ofNat] :
    ((CombatModel.init
        ⟨1, 1, mkDice 1 1, mkDice 1 1, 1⟩
        ⟨1, 1, mkDice 1 1, mkDice 1 1, 1⟩ 2).simulate (fun _ => none)).isSome)
  have hth := simulate_history_spec
    ⟨1, 1, mkDice 1 1, mkDice 1 1, 1⟩
    ⟨1, 1, mkDice 1 1, mkDice 1 1, 1⟩ 2 (fun _ => none) m2
    (by norm_num) (by norm_num) (by norm_num) hm2
  exact ⟨m2, hm2, hth.1, hth.2.2.2.1⟩

end Combat
